import Mathlib

/-!
Verification development for the lowdown Markdown parser core
(document.c: preprocessing, push/pop node discipline, the inline
parser with its active-character dispatch, fenced code blocks,
codespans and footnotes).

Byte buffers are modelled as `List Nat` with each element an octet
value (0..255); out-of-range indexing uses `List.getD _ _ 0`, which
is only ever reached where the C code itself guards the access.
Trees are built functionally: where the C pushes a node, builds its
children under the cursor and pops, the model emits a node whose
`children` field holds the recursively built list.
-/

set_option maxRecDepth 10000

namespace Lowdown

/-- Byte-level `xisspace` from the source: only the space byte 0x20
and the newline byte 0x0A count as spacing. -/
def xisspace (c : Nat) : Bool := c = 32 || c = 10

/-- ASCII `isalnum` as used by the source (C locale). -/
def isalnumB (c : Nat) : Bool :=
  (48 ≤ c && c ≤ 57) || (65 ≤ c && c ≤ 90) || (97 ≤ c && c ≤ 122)

/-- ASCII `isdigit`. -/
def isdigitB (c : Nat) : Bool := 48 ≤ c && c ≤ 57

/-- `data[i]` with the C convention that all guarded accesses are in
range; out-of-range reads yield 0. -/
def bget (buf : List Nat) (i : Nat) : Nat := buf.getD i 0

/-- The half-open byte slice `data[start .. start+len)`. -/
def slice (buf : List Nat) (start len : Nat) : List Nat :=
  (buf.drop start).take len

/-! ## Tab expansion (pre-processor)

`expand_tabs` is called once per input line.  It keeps a column
counter `tab`; every byte whose top two bits are not `10` (i.e. not a
UTF-8 continuation byte) advances the column, and a tab byte is
replaced by spaces emitted until the column is a multiple of four
(at least one space). -/

/-- Number of spaces the `do { putc(' '); tab++; } while (tab % 4);`
loop in `expand_tabs` emits when entered with column `tab`. -/
def tab_fill (tab : Nat) : Nat := 4 - tab % 4

/-- `expand_tabs` from the source, byte at a time: a non-tab byte is
copied (advancing the column unless `(b & 0xc0) == 0x80`), a tab
becomes spaces up to the next multiple-of-4 column. -/
def expand_tabs : List Nat → Nat → List Nat
  | [], _ => []
  | b :: rest, tab =>
    if b = 9 then
      List.replicate (tab_fill tab) 32 ++ expand_tabs rest (tab + tab_fill tab)
    else
      b :: expand_tabs rest (tab + (if Nat.land b 192 = 128 then 0 else 1))

theorem expand_tabs_no_tab_in_output :
    ∀ (l : List Nat) (t : Nat), ∀ b ∈ expand_tabs l t, b ≠ 9 := by
  intro l
  induction l with
  | nil => intro t b hb; simp [expand_tabs] at hb
  | cons x rest ih =>
    intro t b hb
    by_cases hx : x = 9
    · subst hx
      rw [show expand_tabs (9 :: rest) t =
          List.replicate (tab_fill t) 32 ++ expand_tabs rest (t + tab_fill t) from rfl] at hb
      rcases List.mem_append.1 hb with hb | hb
      · have := List.eq_of_mem_replicate hb; omega
      · exact ih _ b hb
    · simp only [expand_tabs, if_neg hx, List.mem_cons] at hb
      rcases hb with rfl | hb
      · exact hx
      · exact ih _ b hb

theorem expand_tabs_id_of_no_tab :
    ∀ (l : List Nat) (t : Nat), (∀ b ∈ l, b ≠ 9) → expand_tabs l t = l := by
  intro l
  induction l with
  | nil => intro t _; rfl
  | cons x rest ih =>
    intro t h
    have hx : x ≠ 9 := h x (List.mem_cons_self x rest)
    simp only [expand_tabs, if_neg hx]
    exact congrArg (x :: ·) (ih _ (fun b hb => h b (List.mem_cons_of_mem x hb)))

/-- C9. Tab expansion: a tab at column `t` becomes exactly the spaces
needed to reach the next multiple-of-4 column; a UTF-8 continuation
byte (top two bits `10`) is copied without advancing the column; an
input containing no tab byte is returned unchanged; and consequently
`expand_tabs` is idempotent. -/
theorem C9_expand_tabs_column_rule_and_idempotent :
    (∀ (l : List Nat) (t : Nat),
      expand_tabs (9 :: l) t =
        List.replicate (4 - t % 4) 32 ++ expand_tabs l (t + (4 - t % 4)))
    ∧ (∀ (b : Nat) (l : List Nat) (t : Nat), Nat.land b 192 = 128 →
      expand_tabs (b :: l) t = b :: expand_tabs l t)
    ∧ (∀ (l : List Nat) (t : Nat), (∀ b ∈ l, b ≠ 9) → expand_tabs l t = l)
    ∧ (∀ l : List Nat, expand_tabs (expand_tabs l 0) 0 = expand_tabs l 0) := by
  refine ⟨fun l t => rfl, fun b l t hb => ?_, expand_tabs_id_of_no_tab, fun l => ?_⟩
  · have hb9 : b ≠ 9 := by intro h; subst h; exact absurd hb (by decide)
    simp [expand_tabs, hb9, hb]
  · exact expand_tabs_id_of_no_tab _ _ (expand_tabs_no_tab_in_output l 0)

/-- Witness for the hypotheses of the C9 theorem at concrete inputs:
a continuation byte 0x80 is copied, and a tab-free line survives. -/
theorem C9_expand_tabs_witness :
    expand_tabs [128, 104, 105] 0 = 128 :: expand_tabs [104, 105] 0
    ∧ expand_tabs [104, 105] 3 = [104, 105] := by
  refine ⟨C9_expand_tabs_column_rule_and_idempotent.2.1 128 [104, 105] 0 (by decide), ?_⟩
  exact C9_expand_tabs_column_rule_and_idempotent.2.2.1 [104, 105] 3 (by decide)

/-! ## AST node model

`enum lowdown_rndrt` restricted to the variants the embedded code can
produce, plus the block-level types handled by the push/pop model. -/

inductive NT where
  | root | doc_header | doc_footer
  | paragraph | blockcode | blockquote | header | hrule
  | definition | definition_title | definition_data
  | list | listitem | meta | table_block
  | footnotes_block | footnote_def
  | normal_text | emphasis | double_emphasis | triple_emphasis
  | strikethrough | highlight | codespan | linebreak
  | link | link_auto | image | raw_html | entity | math_block
  | superscript | footnote_ref
deriving DecidableEq, Repr

/-- `enum halink_type`. -/
inductive ALType where
  | none | normal | email
deriving DecidableEq, Repr

/-- The variant payload of `struct lowdown_node`.  Buffers that the C
leaves zero-initialised are the empty list. -/
inductive Payload where
  | none
  | text (text : List Nat)
  | blockcode (text lang : List Nat)
  | link (link title : List Nat)
  | image (link title dims alt attr_width attr_height : List Nat)
  | autolink (ltype : ALType) (link text : List Nat)
  | math (text : List Nat) (blockmode : Bool)
  | fnref (num : Nat)
  | fndef (num : Nat)
  | headerP (level : Nat)
deriving DecidableEq, Repr

/-- A functional AST node: where the C pushes a node, builds children
under the cursor and pops, the model emits `FNode.mk t pay children`. -/
inductive FNode where
  | mk (t : NT) (pay : Payload) (children : List FNode)
deriving Repr

/-- The node's type tag. -/
def FNode.t : FNode → NT
  | .mk t _ _ => t

/-- The node's payload. -/
def FNode.pay : FNode → Payload
  | .mk _ p _ => p

/-- The node's child list. -/
def FNode.children : FNode → List FNode
  | .mk _ _ c => c

/-- Shorthand for a `LOWDOWN_NORMAL_TEXT` leaf. -/
def ntext (s : List Nat) : FNode := .mk .normal_text (.text s) []

/-! ## Small scanners shared by several handlers -/

/-- The loop of `countspaces`: `r` counts the remaining window
`size - i`, so the loop guard `i < size` is `r > 0`. -/
def countspaces_go (data : List Nat) (offset maxlen : Nat) : Nat → Nat → Nat
  | 0, i => i
  | r + 1, i =>
    if maxlen > 0 ∧ i - offset = maxlen then i
    else if bget data i ≠ 32 then i
    else countspaces_go data offset maxlen r (i + 1)

/-- `countspaces(data, offset, size, maxlen)` from the source: the
index of the first non-space byte at or after `offset` (bounded by
`size`; when `maxlen > 0` at most `maxlen` spaces are skipped). -/
def countspaces (data : List Nat) (offset size maxlen : Nat) : Nat :=
  countspaces_go data offset maxlen (size - offset) offset

/-- The loop of `run_len`, with `r = size - i` the remaining window. -/
def run_len_go (buf : List Nat) (pos b : Nat) : Nat → Nat → Nat
  | 0, i => i
  | r + 1, i =>
    if bget buf (pos + i) = b then run_len_go buf pos b r (i + 1) else i

/-- Length of the run of byte `b` in `data[i ..)` (relative to `pos`),
bounded by `size`. -/
def run_len (buf : List Nat) (pos size b i : Nat) : Nat :=
  run_len_go buf pos b (size - i) i

/-! ## `char_codespan` -/

/-- The loop of `codespan_scan`, with `r = size - e`. -/
def codespan_scan_go (buf : List Nat) (pos nb : Nat) : Nat → Nat → Nat → Nat × Nat
  | 0, i, e => (i, e)
  | r + 1, i, e =>
    if i < nb then
      codespan_scan_go buf pos nb r
        (if bget buf (pos + e) = 96 then i + 1 else 0) (e + 1)
    else (i, e)

/-- The closing-delimiter scan of `char_codespan`:
`for (end = nb; end < size && i < nb; end++) { if (data[end] == '`')
i++; else i = 0; }`, returning the final `(i, end)`. -/
def codespan_scan (buf : List Nat) (pos size nb i e : Nat) : Nat × Nat :=
  codespan_scan_go buf pos nb (size - e) i e

/-- The `while (f_end > nb && data[f_end-1] == ' ') f_end--;` loop of
`char_codespan`. -/
def codespan_rtrim (buf : List Nat) (pos nb : Nat) : Nat → Nat
  | 0 => 0
  | fe + 1 =>
    if fe + 1 > nb ∧ bget buf (pos + fe) = 32
    then codespan_rtrim buf pos nb fe
    else fe + 1

/-- `char_codespan` from the source: count the opening backticks,
find the next run of the same length, trim the surrounding spaces and
emit a `LOWDOWN_CODESPAN` node.  Returns `(consumed, emitted nodes)`;
`(0, [])` means no matching delimiter. -/
def char_codespan (buf : List Nat) (pos size : Nat) : Nat × List FNode :=
  let nb := run_len buf pos size 96 0
  let se := codespan_scan buf pos size nb 0 nb
  if se.1 < nb ∧ se.2 ≥ size then (0, [])
  else
    let f_begin := countspaces buf (pos + nb) (pos + se.2) 0 - pos
    let f_end := codespan_rtrim buf pos nb (se.2 - nb)
    let txt := if f_begin < f_end
               then slice buf (pos + f_begin) (f_end - f_begin) else []
    (se.2, [FNode.mk .codespan (.text txt) []])

/-! ### C5: codespan space trimming -/

/-- Spec-side trimming as the claim words it (named for comparison
with the source behaviour): exactly one leading and one trailing
space removed when present. -/
def claim_trim_one_space (s : List Nat) : List Nat :=
  let s1 := match s with
            | 32 :: t => t
            | _ => s
  match s1.getLast? with
  | some 32 => s1.dropLast
  | _ => s1

theorem bget_cons_succ (x : Nat) (l : List Nat) (k : Nat) :
    bget (x :: l) (k + 1) = bget l k := rfl

theorem bget_cons_zero (x : Nat) (l : List Nat) : bget (x :: l) 0 = x := rfl

theorem bget_append_left {s : List Nat} (t : List Nat) {k : Nat}
    (h : k < s.length) : bget (s ++ t) k = bget s k := by
  simp only [bget, List.getD]
  rw [List.get?_append h]

theorem bget_append_right (s t : List Nat) (k : Nat) :
    bget (s ++ t) (s.length + k) = bget t k := by
  simp only [bget, List.getD]
  rw [List.get?_append_right (by omega), Nat.add_sub_cancel_left]

theorem bget_replicate_any {c a k : Nat} (h : k < a) :
    bget (List.replicate a c) k = c := by
  induction a generalizing k with
  | zero => omega
  | succ a ih =>
    cases k with
    | zero => rfl
    | succ k => exact (bget_cons_succ c _ k).trans (ih (by omega))

theorem bget_replicate {a k : Nat} (h : k < a) :
    bget (List.replicate a 32) k = 32 := bget_replicate_any h

/-- C5 counterexample.  On the codespan ``` `␣␣a␣␣` ``` the claim
predicts the text `␣a␣` (one space trimmed from each side, further
spaces kept); `char_codespan` instead strips all the surrounding
spaces and yields `a`. -/
theorem C5_codespan_counterexample :
    char_codespan [96, 32, 32, 97, 32, 32, 96] 0 7 =
      (7, [FNode.mk .codespan (.text [97]) []])
    ∧ claim_trim_one_space [32, 32, 97, 32, 32] = [32, 97, 32]
    ∧ ([97] : List Nat) ≠ [32, 97, 32] :=
  ⟨rfl, by decide, by decide⟩

theorem codespan_scan_found (buf : List Nat) (pos size : Nat) :
    ∀ d e, (∀ j, e ≤ j → j < e + d → bget buf (pos + j) ≠ 96) →
      bget buf (pos + (e + d)) = 96 → e + d < size →
      codespan_scan buf pos size 1 0 e = (1, e + d + 1) := by
  intro d
  induction d with
  | zero =>
    intro e _ hfound hlt
    simp only [Nat.add_zero] at hfound hlt
    obtain ⟨r, hr⟩ : ∃ r, size - e = r + 1 := ⟨size - e - 1, by omega⟩
    unfold codespan_scan
    rw [hr, codespan_scan_go, if_pos (by decide : (0:Nat) < 1), if_pos hfound]
    cases r with
    | zero => rfl
    | succ r => rw [codespan_scan_go, if_neg (by decide : ¬ (1:Nat) < 1)]
  | succ d ih =>
    intro e hno hfound hlt
    have he : e < size := by omega
    have hne : bget buf (pos + e) ≠ 96 := hno e (Nat.le_refl e) (by omega)
    obtain ⟨r, hr⟩ : ∃ r, size - e = r + 1 := ⟨size - e - 1, by omega⟩
    unfold codespan_scan
    rw [hr, codespan_scan_go, if_pos (by decide : (0:Nat) < 1), if_neg hne]
    have hr' : r = size - (e + 1) := by omega
    have := ih (e + 1) (fun j hj1 hj2 => hno j (by omega) (by omega))
      (by rw [show e + 1 + d = e + (d + 1) by omega]; exact hfound)
      (by omega)
    unfold codespan_scan at this
    rw [hr']
    rw [this]
    congr 1
    omega

theorem countspaces_go_spaces (data : List Nat) (offset : Nat) :
    ∀ d i size, (∀ j, i ≤ j → j < i + d → bget data j = 32) →
      (i + d < size) → bget data (i + d) ≠ 32 →
      countspaces_go data offset 0 (size - i) i = i + d := by
  intro d
  induction d with
  | zero =>
    intro i size _ hlt hstop
    simp only [Nat.add_zero] at hlt hstop
    obtain ⟨r, hr⟩ : ∃ r, size - i = r + 1 := ⟨size - i - 1, by omega⟩
    rw [hr, countspaces_go, if_neg (by simp), if_pos hstop]
    omega
  | succ d ih =>
    intro i size hsp hlt hstop
    have hsp0 : bget data i = 32 := hsp i (Nat.le_refl i) (by omega)
    obtain ⟨r, hr⟩ : ∃ r, size - i = r + 1 := ⟨size - i - 1, by omega⟩
    rw [hr, countspaces_go, if_neg (by simp), if_neg (by simp [hsp0])]
    have hr' : r = size - (i + 1) := by omega
    have := ih (i + 1) size (fun j hj1 hj2 => hsp j (by omega) (by omega))
      (by omega) (by rw [show i + 1 + d = i + (d + 1) by omega]; exact hstop)
    rw [hr', this]
    omega

theorem codespan_rtrim_spaces (buf : List Nat) (pos nb : Nat) :
    ∀ d fe, (∀ j, fe ≤ j → j < fe + d → bget buf (pos + j) = 32) →
      (nb ≤ fe) →
      (fe = nb ∨ bget buf (pos + (fe - 1)) ≠ 32) →
      codespan_rtrim buf pos nb (fe + d) = fe := by
  intro d
  induction d with
  | zero =>
    intro fe _ _ hstop
    match fe, hstop with
    | 0, _ => rfl
    | fe + 1, hstop =>
      rw [codespan_rtrim]
      rcases hstop with h | h
      · rw [if_neg]; intro hc; omega
      · rw [if_neg]; simp only [Nat.add_sub_cancel] at h
        intro hc; exact h hc.2
  | succ d ih =>
    intro fe hsp hnb hstop
    have heq : fe + (d + 1) = (fe + d) + 1 := by omega
    rw [heq, codespan_rtrim]
    rw [if_pos ⟨by omega, hsp (fe + d) (by omega) (by omega)⟩]
    exact ih fe (fun j h1 h2 => hsp j h1 (by omega)) hnb hstop

/-- C5 amended, general statement.  For a one-backtick codespan whose
body is `a` spaces, then `m` (non-empty, backtick-free, not starting
or ending in a space), then `b` spaces, the `LOWDOWN_CODESPAN` text is
exactly `m`: ALL leading and trailing spaces are stripped, not just
one.  A body of only spaces yields an empty codespan text. -/
theorem C5_codespan_amended :
    (∀ (a b : Nat) (m rest : List Nat), m ≠ [] → 96 ∉ m →
      bget m 0 ≠ 32 → bget m (m.length - 1) ≠ 32 →
      char_codespan
        (96 :: ((List.replicate a 32 ++ m ++ List.replicate b 32) ++ 96 :: rest)) 0
        (96 :: ((List.replicate a 32 ++ m ++ List.replicate b 32) ++ 96 :: rest)).length =
      (a + m.length + b + 2, [FNode.mk .codespan (.text m) []]))
    ∧ (∀ (a : Nat) (rest : List Nat), 0 < a →
      char_codespan (96 :: (List.replicate a 32 ++ 96 :: rest)) 0
        (96 :: (List.replicate a 32 ++ 96 :: rest)).length =
      (a + 2, [FNode.mk .codespan (.text []) []])) := by
  constructor
  · intro a b m rest hm h96 hh hl
    generalize hs : (List.replicate a 32 ++ m ++ List.replicate b 32 : List Nat) = s
    generalize hbuf : (96 : Nat) :: (s ++ 96 :: rest) = buf
    generalize hN : buf.length = N
    have hsl : s.length = a + m.length + b := by
      rw [← hs]; simp; omega
    have hmlen : 1 ≤ m.length := by
      cases m with
      | nil => exact absurd rfl hm
      | cons x t => simp
    have hsize : N = s.length + 2 + rest.length := by
      rw [← hN, ← hbuf]; simp; omega
    -- byte values at the relevant offsets
    have hb0 : bget buf 0 = 96 := by rw [← hbuf]; rfl
    have hbk : ∀ k, k < s.length → bget buf (1 + k) = bget s k := by
      intro k hk
      rw [← hbuf, Nat.add_comm 1 k, bget_cons_succ, bget_append_left _ hk]
    have hbclose : bget buf (1 + s.length) = 96 := by
      rw [← hbuf, Nat.add_comm 1 s.length, bget_cons_succ]
      have := bget_append_right s (96 :: rest) 0
      simpa using this
    have hs_sp1 : ∀ k, k < a → bget s k = 32 := by
      intro k hk
      rw [← hs, List.append_assoc, bget_append_left _ (by simp; omega)]
      exact bget_replicate hk
    have hs_m : ∀ j, j < m.length → bget s (a + j) = bget m j := by
      intro j hj
      rw [← hs, List.append_assoc]
      have h1 : bget (List.replicate a 32 ++ (m ++ List.replicate b 32)) (a + j)
          = bget (m ++ List.replicate b 32) j := by
        have := bget_append_right (List.replicate a 32) (m ++ List.replicate b 32) j
        simpa using this
      rw [h1, bget_append_left _ hj]
    have hs_sp2 : ∀ j, j < b → bget s (a + m.length + j) = 32 := by
      intro j hj
      rw [← hs, List.append_assoc]
      have h1 : bget (List.replicate a 32 ++ (m ++ List.replicate b 32))
            (a + (m.length + j)) = bget (m ++ List.replicate b 32) (m.length + j) := by
        have := bget_append_right (List.replicate a 32) (m ++ List.replicate b 32)
          (m.length + j)
        simpa using this
      rw [show a + m.length + j = a + (m.length + j) by omega, h1,
        bget_append_right m (List.replicate b 32) j]
      exact bget_replicate hj
    have hmget : ∀ j, j < m.length → bget m j ∈ m := by
      intro j hj
      simp only [bget, List.getD]
      rw [List.get?_eq_getElem? m j, List.getElem?_eq_getElem hj]
      simpa using List.getElem_mem _
    have hnotick : ∀ k, k < s.length → bget s k ≠ 96 := by
      intro k hk
      rcases Nat.lt_or_ge k a with h | h
      · rw [hs_sp1 k h]; decide
      · rcases Nat.lt_or_ge k (a + m.length) with h2 | h2
        · have hk2 : k = a + (k - a) := by omega
          rw [hk2, hs_m _ (by omega)]
          intro hc
          exact h96 (hc ▸ hmget _ (by omega))
        · have hk2 : k = a + m.length + (k - a - m.length) := by omega
          rw [hk2, hs_sp2 _ (by omega)]; decide
    -- step 1: the opening run has length 1
    have hnb : run_len buf 0 N 96 0 = 1 := by
      obtain ⟨r, hr⟩ : ∃ r, N - 0 = r + 2 := ⟨N - 2, by omega⟩
      rw [run_len, hr, run_len_go, if_pos (by simpa using hb0), run_len_go]
      rw [if_neg]
      have h1 : bget buf (0 + 1) = bget s 0 := by simpa using hbk 0 (by omega)
      rw [h1]
      exact hnotick 0 (by omega)
    -- step 2: the closing scan stops right after position 1 + |s|
    have hscan : codespan_scan buf 0 N 1 0 1 = (1, s.length + 2) := by
      have := codespan_scan_found buf 0 N s.length 1
        (fun j hj1 hj2 => by
          rw [Nat.zero_add]
          have hj : j = 1 + (j - 1) := by omega
          rw [hj, hbk _ (by omega)]
          exact hnotick _ (by omega))
        (by rw [Nat.zero_add]; exact hbclose)
        (by omega)
      rw [this, show 1 + s.length + 1 = s.length + 2 by omega]
    -- step 3: the leading-space trim
    have hstopb : bget buf (1 + a) = bget m 0 := by
      rw [hbk a (by omega)]
      have h0 := hs_m 0 (by omega)
      rw [Nat.add_zero] at h0
      exact h0
    have hcs : countspaces buf 1 (s.length + 2) 0 = 1 + a := by
      rw [countspaces]
      have := countspaces_go_spaces buf 1 a 1 (s.length + 2)
        (fun j hj1 hj2 => by
          have hj : j = 1 + (j - 1) := by omega
          rw [hj, hbk _ (by omega)]
          exact hs_sp1 _ (by omega))
        (by omega)
        (by rw [hstopb]; exact hh)
      simpa using this
    -- step 4: the trailing-space trim
    have hrt : codespan_rtrim buf 0 1 (s.length + 2 - 1) = 1 + a + m.length := by
      have heq : s.length + 2 - 1 = (1 + a + m.length) + b := by omega
      rw [heq]
      refine codespan_rtrim_spaces buf 0 1 b (1 + a + m.length)
        (fun j hj1 hj2 => by
          rw [Nat.zero_add]
          have hj : j = 1 + (a + m.length + (j - 1 - a - m.length)) := by omega
          rw [hj, hbk _ (by omega)]
          exact hs_sp2 _ (by omega)) (by omega) ?_
      right
      rw [Nat.zero_add]
      have hj : 1 + a + m.length - 1 = 1 + (a + (m.length - 1)) := by omega
      rw [hj, hbk _ (by omega), hs_m _ (by omega)]
      exact hl
    -- assemble
    have hslice : slice buf (1 + a) m.length = m := by
      rw [← hbuf, slice]
      rw [show (1 + a) = a + 1 by omega]
      rw [List.drop_succ_cons]
      rw [← hs, List.append_assoc, List.append_assoc]
      rw [List.drop_append_of_le_length (by simp)]
      simp only [List.drop_replicate, Nat.sub_self, List.replicate_zero,
        List.nil_append]
      exact List.take_left _ _
    rw [char_codespan]
    simp only [hnb, hscan, Nat.zero_add, Nat.add_zero, Nat.sub_zero]
    rw [if_neg (by simp)]
    simp only [hcs, hrt, Nat.zero_add, Nat.add_zero, Nat.sub_zero]
    rw [if_pos (by omega)]
    rw [show 1 + a + m.length - (1 + a) = m.length by omega]
    rw [hslice]
    refine Prod.ext ?_ rfl
    simp; omega
  · intro a rest ha
    generalize hs : List.replicate a 32 = s
    generalize hbuf : (96 : Nat) :: (s ++ 96 :: rest) = buf
    generalize hN : buf.length = N
    have hsl : s.length = a := by rw [← hs]; simp
    have hsize : N = a + 2 + rest.length := by rw [← hN, ← hbuf]; simp; omega
    have hb0 : bget buf 0 = 96 := by rw [← hbuf]; rfl
    have hbk : ∀ k, k < a → bget buf (1 + k) = 32 := by
      intro k hk
      rw [← hbuf, Nat.add_comm 1 k, bget_cons_succ,
        bget_append_left _ (by omega)]
      rw [← hs]
      exact bget_replicate hk
    have hbclose : bget buf (1 + a) = 96 := by
      rw [← hbuf, Nat.add_comm 1 a, bget_cons_succ]
      have := bget_append_right s (96 :: rest) 0
      rw [hsl] at this
      simpa using this
    have hnb : run_len buf 0 N 96 0 = 1 := by
      obtain ⟨r, hr⟩ : ∃ r, N - 0 = r + 2 := ⟨N - 2, by omega⟩
      rw [run_len, hr, run_len_go, if_pos (by simpa using hb0), run_len_go]
      rw [if_neg]
      have h1 : bget buf (0 + 1) = 32 := by simpa using hbk 0 (by omega)
      rw [h1]; decide
    have hscan : codespan_scan buf 0 N 1 0 1 = (1, a + 2) := by
      have := codespan_scan_found buf 0 N a 1
        (fun j hj1 hj2 => by
          rw [Nat.zero_add]
          have hj : j = 1 + (j - 1) := by omega
          rw [hj, hbk _ (by omega)]; decide)
        (by rw [Nat.zero_add]; exact hbclose)
        (by omega)
      rw [this, show 1 + a + 1 = a + 2 by omega]
    have hcs : countspaces buf 1 (a + 2) 0 = 1 + a := by
      rw [countspaces]
      have := countspaces_go_spaces buf 1 a 1 (a + 2)
        (fun j hj1 hj2 => by
          have hj : j = 1 + (j - 1) := by omega
          rw [hj, hbk _ (by omega)])
        (by omega)
        (by rw [show (1 : Nat) + a = 1 + a from rfl, hbclose]; decide)
      simpa using this
    have hrt : codespan_rtrim buf 0 1 (a + 2 - 1) = 1 := by
      have heq : a + 2 - 1 = 1 + a := by omega
      rw [heq]
      exact codespan_rtrim_spaces buf 0 1 a 1
        (fun j hj1 hj2 => by
          rw [Nat.zero_add]
          have hj : j = 1 + (j - 1) := by omega
          rw [hj, hbk _ (by omega)]) (by omega) (Or.inl rfl)
    rw [char_codespan]
    simp only [hnb, hscan, Nat.zero_add, Nat.add_zero, Nat.sub_zero]
    rw [if_neg (by simp)]
    simp only [hcs, hrt, Nat.zero_add, Nat.add_zero, Nat.sub_zero]
    rw [if_neg (by omega)]

/-! ## Fenced code blocks -/

/-- `is_empty(data, size)` from the source (here `data = buf + pos`):
the line length plus one when the line holds only spaces up to a
newline or the end of the window, 0 otherwise. -/
def is_empty (buf : List Nat) (pos size : Nat) : Nat :=
  go (size - 0) 0
where
  go : Nat → Nat → Nat
    | 0, i => i + 1
    | r + 1, i =>
      if bget buf (pos + i) = 10 then i + 1
      else if bget buf (pos + i) ≠ 32 then 0
      else go r (i + 1)

/-- `while (i < size && data[i] != '\n') i++` starting at `i`,
relative to `buf + pos`. -/
def scan_to_nl (buf : List Nat) (pos size i : Nat) : Nat :=
  go (size - i) i
where
  go : Nat → Nat → Nat
    | 0, i => i
    | r + 1, i => if bget buf (pos + i) = 10 then i else go r (i + 1)

/-- `while (i < size && xisspace(data[i])) i++`. -/
def skip_xisspace (buf : List Nat) (pos size i : Nat) : Nat :=
  go (size - i) i
where
  go : Nat → Nat → Nat
    | 0, i => i
    | r + 1, i => if xisspace (bget buf (pos + i)) then go r (i + 1) else i

/-- `while (i < size && !xisspace(data[i])) i++`. -/
def scan_xisspace (buf : List Nat) (pos size i : Nat) : Nat :=
  go (size - i) i
where
  go : Nat → Nat → Nat
    | 0, i => i
    | r + 1, i => if xisspace (bget buf (pos + i)) then i else go r (i + 1)

/-- `is_codefence(data, size, &width, &chr)` from the source, on the
line `buf[pos .. pos+size)`: up to three leading spaces, then a run of
at least three backticks or tildes.  Returns `some (fence end, run
width, fence char)`, or `none` where the C returns 0. -/
def is_codefence (buf : List Nat) (pos size : Nat) : Option (Nat × Nat × Nat) :=
  if size < 3 then none
  else
    let i := countspaces buf pos (pos + size) 3 - pos
    let c := bget buf (pos + i)
    if i + 2 ≥ size ∨ (c ≠ 126 ∧ c ≠ 96) then none
    else
      let j := run_len buf pos size c (i + 1)
      let n := j - i
      if n < 3 then none else some (j, n, c)

/-- `parse_codefence` from the source: checks the opening line, reads
the language word and rejects lines that contain the fence character
three more times (the "avoid parsing a codespan as a fence" check).
Returns `some (w, width, chr, lang)`. -/
def parse_codefence (buf : List Nat) (pos size : Nat) :
    Option (Nat × Nat × Nat × List Nat) :=
  match is_codefence buf pos size with
  | none => none
  | some (w, width, chr) =>
    let i1 := skip_xisspace buf pos size w
    let lang_start := i1
    let i2 := scan_xisspace buf pos size i1
    let lang := slice buf (pos + lang_start) (i2 - lang_start)
    let i3 := tripleGo (size - (lang_start + 2)) (lang_start + 2) chr
    if i3 < size then none else some (w, width, chr, lang)
where
  tripleGo : Nat → Nat → Nat → Nat
    | 0, i, _ => i
    | r + 1, i, c =>
      if bget buf (pos + i) = c ∧ bget buf (pos + i - 1) = c ∧
         bget buf (pos + i - 2) = c then i
      else tripleGo r (i + 1) c

/-- The closing test of `parse_fencedcode`:
`w == w2 && width == width2 && chr == chr2 && is_empty(...)` on one
line (the C leaves `width2`/`chr2` unset when `is_codefence` fails,
but then `w2 == 0 ≠ w` short-circuits the comparison). -/
def fence_closes (buf : List Nat) (abs_start line_len w width chr : Nat) : Bool :=
  match is_codefence buf abs_start line_len with
  | some (w2, width2, chr2) =>
    w = w2 && width = width2 && chr = chr2 &&
      is_empty buf (abs_start + w) (line_len - w) ≠ 0
  | none => false

/-- The line loop of `parse_fencedcode`, searching for the closing
fence; returns `(line_start, i)` as left by the loop (fuel is
`size + 2`, enough for every iteration to advance `i`). -/
def fenced_loop (buf : List Nat) (pos size w width chr : Nat) :
    Nat → Nat → Nat × Nat
  | 0, i => (i, i)
  | r + 1, i =>
    if i < size then
      let line_start := i
      let i2 := scan_to_nl buf pos size i
      if fence_closes buf (pos + line_start) (i2 - line_start) w width chr
      then (line_start, i2)
      else fenced_loop buf pos size w width chr r (i2 + 1)
    else (i, i)

/-- `parse_fencedcode` from the source: parse the opening fence line,
scan for the closing line, and emit a `LOWDOWN_BLOCKCODE` node whose
text is the bytes strictly between the two fence lines. -/
def parse_fencedcode (buf : List Nat) (pos size : Nat) : Nat × List FNode :=
  let i0 := scan_to_nl buf pos size 0
  match parse_codefence buf pos i0 with
  | none => (0, [])
  | some (w, width, chr, lang) =>
    let text_start := i0 + 1
    let le := fenced_loop buf pos size w width chr (size + 2) text_start
    (le.2, [FNode.mk .blockcode (.blockcode
      (slice buf (pos + text_start) (le.1 - text_start)) lang) []])

/-- The claim's closing rule, as the spec words it (named for
comparison with the source behaviour): a line closes the fence iff it
is the same character repeated at least `n` times followed by nothing
but whitespace. -/
def claim_fence_closes (line : List Nat) (n chr : Nat) : Bool :=
  let k := (line.takeWhile (· = chr)).length
  decide (n ≤ k) && (line.drop k).all (fun b => b = 32)

/-- C4 counterexample.  For the opening fence ``` ``` ``` (three
backticks), a line of FOUR backticks satisfies the claim's
"at least as many" rule but does not close the block in the code
(`w == w2 && width == width2` demands equality), so on
&#96;&#96;&#96; \ a \ &#96;&#96;&#96;&#96; \ &#96;&#96;&#96; the
BLOCKCODE text runs past the four-backtick line. -/
theorem C4_fence_counterexample :
    claim_fence_closes [96, 96, 96, 96] 3 96 = true
    ∧ fence_closes [96, 96, 96, 96] 0 4 3 3 96 = false
    ∧ parse_fencedcode [96,96,96,10,97,10,96,96,96,96,10,96,96,96,10] 0 15 =
        (14, [FNode.mk .blockcode (.blockcode [97,10,96,96,96,96,10] []) []])
    ∧ ([97,10,96,96,96,96,10] : List Nat) ≠ [97, 10] :=
  ⟨rfl, rfl, rfl, by decide⟩

theorem countspaces_go_adv (data : List Nat) (offset maxlen : Nat) :
    ∀ d t0 size,
      (∀ t, t0 ≤ t → t < t0 + d → bget data (offset + t) = 32) →
      (0 < maxlen → t0 + d ≤ maxlen) →
      offset + t0 + d ≤ size →
      ((0 < maxlen ∧ t0 + d = maxlen) ∨
        (offset + t0 + d < size ∧ bget data (offset + (t0 + d)) ≠ 32)) →
      countspaces_go data offset maxlen (size - (offset + t0)) (offset + t0)
        = offset + (t0 + d) := by
  intro d
  induction d with
  | zero =>
    intro t0 size _ _ hle hstop
    rcases hcd : size - (offset + t0) with _ | r
    · rw [countspaces_go]; omega
    · rw [countspaces_go]
      by_cases h1 : 0 < maxlen ∧ offset + t0 - offset = maxlen
      · rw [if_pos h1]; omega
      · rw [if_neg h1, if_pos]
        · omega
        · rcases hstop with ⟨hm, ht⟩ | ⟨_, hb⟩
          · exact absurd ⟨hm, by omega⟩ h1
          · simpa using hb
  | succ d ih =>
    intro t0 size hsp hml hle hstop
    obtain ⟨r, hr⟩ : ∃ r, size - (offset + t0) = r + 1 :=
      ⟨size - (offset + t0) - 1, by omega⟩
    rw [hr, countspaces_go]
    rw [if_neg (by rintro ⟨hm, ht⟩; have := hml hm; omega)]
    rw [if_neg (by simpa using hsp t0 (Nat.le_refl t0) (by omega))]
    have hr' : r = size - (offset + t0 + 1) := by omega
    have := ih (t0 + 1) size
      (fun t ht1 ht2 => hsp t (by omega) (by omega))
      (by intro hm; have := hml hm; omega)
      (by omega)
      (by rcases hstop with ⟨hm, ht⟩ | ⟨hlt, hb⟩
          · exact Or.inl ⟨hm, by omega⟩
          · refine Or.inr ⟨by omega, ?_⟩
            rw [show t0 + 1 + d = t0 + (d + 1) by omega]
            exact hb)
    rw [hr', show offset + t0 + 1 = offset + (t0 + 1) by omega, this]
    omega

theorem run_len_go_run (buf : List Nat) (pos b : Nat) :
    ∀ d i size, (∀ t, t < d → bget buf (pos + (i + t)) = b) →
      i + d ≤ size → (i + d = size ∨ bget buf (pos + (i + d)) ≠ b) →
      run_len_go buf pos b (size - i) i = i + d := by
  intro d
  induction d with
  | zero =>
    intro i size _ hle hstop
    rcases hcd : size - i with _ | r
    · rw [run_len_go]; omega
    · rw [run_len_go, if_neg]
      · omega
      · rcases hstop with h | h
        · omega
        · simpa using h
  | succ d ih =>
    intro i size hrun hle hstop
    obtain ⟨r, hr⟩ : ∃ r, size - i = r + 1 := ⟨size - i - 1, by omega⟩
    rw [hr, run_len_go, if_pos (by simpa using hrun 0 (by omega))]
    have hr' : r = size - (i + 1) := by omega
    have := ih (i + 1) size
      (fun t ht => by
        rw [show i + 1 + t = i + (t + 1) by omega]
        exact hrun (t + 1) (by omega))
      (by omega)
      (by rcases hstop with h | h
          · exact Or.inl (by omega)
          · right; rw [show i + 1 + d = i + (d + 1) by omega]; exact h)
    rw [hr', this]
    omega

theorem is_empty_go_spaces (buf : List Nat) (pos : Nat) :
    ∀ d i, (∀ t, i ≤ t → t < i + d → bget buf (pos + t) = 32) →
      is_empty.go buf pos d i = i + d + 1 := by
  intro d
  induction d with
  | zero => intro i _; rw [is_empty.go]
  | succ d ih =>
    intro i hsp
    have h32 : bget buf (pos + i) = 32 := hsp i (Nat.le_refl i) (by omega)
    rw [is_empty.go, if_neg (by rw [h32]; decide), if_neg (by rw [h32]; simp)]
    have := ih (i + 1) (fun t ht1 ht2 => hsp t (by omega) (by omega))
    rw [this]
    omega

/-- Byte values on a line of `j` spaces, `k` fence characters and
`msp` trailing spaces: the trailing-space region. -/
theorem repline_b3 (j k msp chr t : Nat) (ht : t < msp) :
    bget (List.replicate j 32 ++ (List.replicate k chr ++ List.replicate msp 32))
      (j + k + t) = 32 := by
  have h1 := bget_append_right (List.replicate j 32)
    (List.replicate k chr ++ List.replicate msp 32) (k + t)
  simp only [List.length_replicate] at h1
  rw [show j + k + t = j + (k + t) by omega, h1]
  have h2 := bget_append_right (List.replicate k chr) (List.replicate msp 32) t
  simp only [List.length_replicate] at h2
  rw [h2]
  exact bget_replicate ht

/-- `is_codefence` on a line made of `j` spaces, `k` fence characters
and `msp` trailing spaces. -/
theorem is_codefence_repline (j k msp chr : Nat) (hchr : chr = 96 ∨ chr = 126)
    (hk : 3 ≤ k) (hj : j ≤ 3) :
    is_codefence (List.replicate j 32 ++ (List.replicate k chr ++ List.replicate msp 32))
      0 (j + k + msp) = some (j + k, k, chr) := by
  have hchr32 : chr ≠ 32 := by rcases hchr with h | h <;> omega
  set line : List Nat :=
    List.replicate j 32 ++ (List.replicate k chr ++ List.replicate msp 32) with hline
  have hb1 : ∀ t, t < j → bget line t = 32 := by
    intro t ht
    rw [hline, bget_append_left _ (by simpa using ht)]
    exact bget_replicate ht
  have hb2 : ∀ t, t < k → bget line (j + t) = chr := by
    intro t ht
    rw [hline]
    have h1 := bget_append_right (List.replicate j 32)
      (List.replicate k chr ++ List.replicate msp 32) t
    simp only [List.length_replicate] at h1
    rw [h1, bget_append_left _ (by simpa using ht)]
    exact bget_replicate_any ht
  have hb3 : ∀ t, t < msp → bget line (j + k + t) = 32 := by
    intro t ht
    rw [hline]
    have h1 := bget_append_right (List.replicate j 32)
      (List.replicate k chr ++ List.replicate msp 32) (k + t)
    simp only [List.length_replicate] at h1
    rw [show j + k + t = j + (k + t) by omega, h1]
    have h2 := bget_append_right (List.replicate k chr) (List.replicate msp 32) t
    simp only [List.length_replicate] at h2
    rw [h2]
    exact bget_replicate ht
  have hcs : countspaces line 0 (j + k + msp) 3 = j := by
    rw [countspaces]
    have := countspaces_go_adv line 0 3 j 0 (j + k + msp)
      (fun t ht1 ht2 => by
        rw [Nat.zero_add]
        exact hb1 t (by omega))
      (by omega) (by omega)
      (by rcases Nat.lt_or_ge j 3 with h | h
          · refine Or.inr ⟨by omega, ?_⟩
            rw [Nat.zero_add, Nat.zero_add]
            rw [show j = j + 0 by omega] at hb2 ⊢
            rw [hb2 0 (by omega)]
            exact hchr32
          · exact Or.inl ⟨by decide, by omega⟩)
    simpa using this
  have hbj : bget line j = chr := by
    rw [show j = j + 0 by omega] at hb2 ⊢
    exact hb2 0 (by omega)
  have hrun : run_len line 0 (j + k + msp) chr (j + 1) = j + k := by
    rw [run_len]
    have := run_len_go_run line 0 chr (k - 1) (j + 1) (j + k + msp)
      (fun t ht => by
        rw [Nat.zero_add, show j + 1 + t = j + (t + 1) by omega]
        exact hb2 (t + 1) (by omega))
      (by omega)
      (by rcases Nat.eq_or_lt_of_le (Nat.zero_le msp) with h | h
          · exact Or.inl (by omega)
          · right
            rw [Nat.zero_add, show j + 1 + (k - 1) = j + k + 0 by omega]
            rw [hb3 0 (by omega)]
            omega)
    rw [show j + 1 + (k - 1) = j + k by omega] at this
    exact this
  rw [is_codefence, if_neg (by omega)]
  simp only [Nat.zero_add, Nat.sub_zero, hcs, hbj]
  rw [if_neg (by
    push_neg
    refine ⟨by omega, fun hne => ?_⟩
    rcases hchr with h | h
    · exact h
    · exact absurd h hne)]
  simp only [hrun]
  rw [if_neg (by omega)]
  have hsub : j + k - j = k := by omega
  rw [hsub]

/-- C4 amended, general statement.  With an unindented opening fence
of exactly `n` copies of the fence character, a candidate line of `j`
leading spaces, `k` fence characters and trailing spaces closes the
block IFF `j = 0` and `k = n` — the closing fence must repeat the
character EXACTLY `n` times at the same indentation, not "at least"
`n` times; and the BLOCKCODE text is the lines strictly between the
two fences. -/
theorem C4_fence_amended :
    (∀ (n k j msp chr : Nat), (chr = 96 ∨ chr = 126) → 3 ≤ n → 3 ≤ k → j ≤ 3 →
      (fence_closes
          (List.replicate j 32 ++ (List.replicate k chr ++ List.replicate msp 32))
          0 (j + k + msp) n n chr = true ↔ (j = 0 ∧ k = n)))
    ∧ parse_fencedcode [96,96,96,10,97,10,96,96,96,10] 0 10 =
        (9, [FNode.mk .blockcode (.blockcode [97, 10] []) []]) := by
  constructor
  · intro n k j msp chr hchr hn hk hj
    rw [fence_closes, is_codefence_repline j k msp chr hchr hk hj]
    simp only [Bool.and_eq_true, decide_eq_true_eq]
    constructor
    · rintro ⟨⟨⟨h1, h2⟩, -⟩, -⟩
      omega
    · rintro ⟨hj0, hkn⟩
      have hie : is_empty
          (List.replicate j 32 ++ (List.replicate k chr ++ List.replicate msp 32))
          (0 + n) (j + k + msp - n) = msp + 1 := by
        rw [is_empty, Nat.sub_zero, show j + k + msp - n = msp by omega]
        have := is_empty_go_spaces
          (List.replicate j 32 ++ (List.replicate k chr ++ List.replicate msp 32))
          (0 + n) msp 0
          (fun t ht1 ht2 => by
            rw [show 0 + n + t = j + k + t by omega]
            exact repline_b3 j k msp chr t (by omega))
        simpa using this
      refine ⟨⟨⟨by omega, by omega⟩, trivial⟩, ?_⟩
      rw [hie]
      omega
  · rfl

/-- Witness discharging the hypotheses of `C4_fence_amended` at a
concrete input: an exact three-backtick closing line does close a
three-backtick fence, and a four-backtick line does not. -/
theorem C4_fence_amended_witness :
    fence_closes [96, 96, 96] 0 3 3 3 96 = true
    ∧ fence_closes [96, 96, 96, 96] 0 4 3 3 96 = false := by
  constructor
  · have h := (C4_fence_amended.1 3 3 0 0 96 (Or.inl rfl) (by omega) (by omega)
      (by omega)).mpr ⟨rfl, rfl⟩
    simpa using h
  · have h := C4_fence_amended.1 3 4 0 0 96 (Or.inl rfl) (by omega) (by omega)
      (by omega)
    by_contra hc
    simp only [Bool.not_eq_false] at hc
    have := h.mp (by simpa using hc)
    omega

/-- Witness discharging the hypotheses of `C5_codespan_amended` at
concrete inputs: the codespan body `␣␣a␣␣` (a = b = 2, m = "a") and an
all-space body. -/
theorem C5_codespan_amended_witness :
    char_codespan [96, 32, 32, 97, 32, 32, 96] 0 7 =
      (7, [FNode.mk .codespan (.text [97]) []])
    ∧ char_codespan [96, 32, 96] 0 3 =
      (3, [FNode.mk .codespan (.text []) []]) := by
  constructor
  · have := C5_codespan_amended.1 2 2 [97] [] (by decide) (by decide)
      (by decide) (by decide)
    simpa using this
  · have := C5_codespan_amended.2 1 [] (by decide)
    simpa using this

/-! ## The push/pop node discipline (`pushnode` / `popnode`)

The C maintains `doc->current` (the cursor), `doc->depth` and
`doc->nodes`.  The model keeps the cursor chain as a stack of frames
(head = `doc->current`); a node joins its parent's child list when it
is popped, which yields the same completed subtrees as the C's
insert-at-creation. -/

/-- A completed node: `id` as assigned by `pushnode`
(`n->id = doc->nodes++`) and `cdepth`, the value of `doc->depth` just
before the push — the node's distance from the ROOT at creation. -/
inductive PNode where
  | mk (id : Nat) (t : NT) (cdepth : Nat) (children : List PNode)
deriving Repr

/-- The id of a completed node. -/
def PNode.id : PNode → Nat
  | .mk i _ _ _ => i

/-- The type tag of a completed node. -/
def PNode.t : PNode → NT
  | .mk _ t _ _ => t

/-- The creation depth of a completed node. -/
def PNode.cdepth : PNode → Nat
  | .mk _ _ d _ => d

/-- The children of a completed node. -/
def PNode.children : PNode → List PNode
  | .mk _ _ _ c => c

/-- A node still being built: one link of the cursor chain. -/
structure BFrame where
  id : Nat
  t : NT
  cdepth : Nat
  children : List PNode
deriving Repr

/-- The parser state touched by `pushnode`/`popnode`: node counter,
depth counter, configured `maxdepth`, cursor chain (head is
`doc->current`; empty list is `doc->current == NULL`), and the
finished trees in the order their roots were popped (the C driver
pops the ROOT exactly once, so this list is the returned tree). -/
structure BState where
  nodes : Nat
  depth : Nat
  maxdepth : Nat
  stack : List BFrame
  results : List PNode
deriving Repr

/-- `pushnode`: `if ((doc->depth++ > doc->maxdepth) && doc->maxdepth)
errx(...)` — fatal iff the depth BEFORE the increment exceeds a
non-zero `maxdepth`; otherwise allocate the node with the next id and
make it the cursor. -/
def pushnode (t : NT) (s : BState) : Except String BState :=
  if s.depth > s.maxdepth ∧ s.maxdepth ≠ 0 then
    .error "maximum parse depth exceeded"
  else
    .ok { s with
      nodes := s.nodes + 1
      depth := s.depth + 1
      stack := ⟨s.nodes, t, s.depth, []⟩ :: s.stack }

/-- `popnode`: assert a positive depth and a cursor, decrement the
depth and move the cursor to the parent; the completed node joins the
parent's child list (or becomes the result for the ROOT). -/
def popnode (s : BState) : Except String BState :=
  if s.depth = 0 then .error "assertion: doc->depth > 0"
  else
    match s.stack with
    | [] => .error "assertion: doc->current != NULL"
    | fr :: rest =>
      let n := PNode.mk fr.id fr.t fr.cdepth fr.children
      match rest with
      | [] =>
        .ok (BState.mk s.nodes (s.depth - 1) s.maxdepth [] (s.results ++ [n]))
      | parent :: rest2 =>
        let parent2 : BFrame := { parent with children := parent.children ++ [n] }
        .ok { s with depth := s.depth - 1, stack := parent2 :: rest2 }

/-- One parser action on the push/pop state.  `push`/`pop` are
`pushnode`/`popnode`.  `defmerge_push` and `defmerge_descend` are the
two branches of `parse_definition` (source lines 2585-2599): enter a
freshly pushed DEFINITION, or re-enter the previous DEFINITION
sibling (`doc->current = prev; doc->depth++`, with no depth check),
and re-parent the trailing one-line PARAGRAPH under it, retyping it
DEFINITION_TITLE. -/
inductive BOp where
  | push (t : NT)
  | pop
  | defmerge_push
  | defmerge_descend
deriving Repr

/-- Step semantics of one `BOp`; `Except.error` is a fatal `errx` or
a violated `assert`. -/
def bstep : BOp → BState → Except String BState
  | .push t, s => pushnode t s
  | .pop, s => popnode s
  | .defmerge_push, s =>
    match s.stack with
    | [] => .error "assertion: doc->current != NULL"
    | fr :: rest =>
      match fr.children.getLast? with
      | none => .error "assertion: cur != NULL"
      | some cur =>
        if cur.t ≠ NT.paragraph then
          .error "assertion: cur->type == LOWDOWN_PARAGRAPH"
        else if s.depth > s.maxdepth ∧ s.maxdepth ≠ 0 then
          .error "maximum parse depth exceeded"
        else
          let fr2 : BFrame := { fr with children := fr.children.dropLast }
          .ok { s with
            nodes := s.nodes + 1
            depth := s.depth + 1
            stack := ⟨s.nodes, NT.definition, s.depth,
                [PNode.mk cur.id NT.definition_title cur.cdepth cur.children]⟩
              :: fr2 :: rest }
  | .defmerge_descend, s =>
    match s.stack with
    | [] => .error "assertion: doc->current != NULL"
    | fr :: rest =>
      match fr.children.getLast? with
      | none => .error "assertion: cur != NULL"
      | some cur =>
        if cur.t ≠ NT.paragraph then
          .error "assertion: cur->type == LOWDOWN_PARAGRAPH"
        else
          match fr.children.dropLast.getLast? with
          | none => .error "prev == NULL"
          | some prev =>
            if prev.t ≠ NT.definition then .error "prev->type != DEFINITION"
            else
              let fr2 : BFrame := { fr with children := fr.children.dropLast.dropLast }
              .ok { s with
                depth := s.depth + 1
                stack := ⟨prev.id, prev.t, prev.cdepth,
                    prev.children ++
                      [PNode.mk cur.id NT.definition_title cur.cdepth cur.children]⟩
                  :: fr2 :: rest }

/-- Run a list of ops, stopping at the first fatal error. -/
def brun : List BOp → BState → Except String BState
  | [], s => .ok s
  | op :: ops, s =>
    match bstep op s with
    | .error e => .error e
    | .ok s1 => brun ops s1

/-- `opts->maxdepth` handling of `lowdown_doc_new`:
`doc->maxdepth = opts == NULL ? 128 : opts->maxdepth`. -/
def lowdown_doc_new_maxdepth : Option Nat → Nat
  | none => 128
  | some md => md

/-- The state of a freshly created doc at the top of
`lowdown_doc_parse`: `doc->nodes = 0` (from `xcalloc`),
`doc->depth = 0`, `doc->current = NULL`. -/
def fresh_doc (m : Nat) : BState := ⟨0, 0, m, [], []⟩

/-- The push/pop skeleton of `lowdown_doc_parse`: push ROOT, push
DOC_HEADER, run the metadata ops under it, pop it, run the
second-pass ops (`parse_block` and `parse_footnote_list`), push and
pop DOC_FOOTER, read `doc->nodes` into the out-parameter, pop ROOT
and return it. -/
def lowdown_doc_parse_ops (header_ops body_ops : List BOp) (m : Nat) :
    Except String (PNode × Nat × BState) := do
  let s1 ← pushnode .root (fresh_doc m)
  let s2 ← pushnode .doc_header s1
  let s3 ← brun header_ops s2
  let s4 ← popnode s3
  let s5 ← brun body_ops s4
  let s6 ← pushnode .doc_footer s5
  let s7 ← popnode s6
  let outn := s7.nodes
  let s8 ← popnode s7
  match s8.results.head? with
  | some root => .ok (root, outn, s8)
  | none => .error "unreachable"

/-! ### C2: the depth bound -/

mutual
/-- Depth of the deepest node strictly below this one (children are
at 1). -/
def pnode_maxdepth : PNode → Nat
  | .mk _ _ _ cs => pnodes_maxdepth cs

/-- Depth of the deepest node of a forest, the forest's roots at 1. -/
def pnodes_maxdepth : List PNode → Nat
  | [] => 0
  | n :: ns => max (1 + pnode_maxdepth n) (pnodes_maxdepth ns)
end

mutual
/-- All creation depths in the subtree are at most `m`. -/
def pnode_cdle (m : Nat) : PNode → Bool
  | .mk _ _ d cs => decide (d ≤ m) && pnodes_cdle m cs

/-- All creation depths in the forest are at most `m`. -/
def pnodes_cdle (m : Nat) : List PNode → Bool
  | [] => true
  | n :: ns => pnode_cdle m n && pnodes_cdle m ns
end

/-- All creation depths in a frame are at most `m`. -/
def frame_cdle (m : Nat) (f : BFrame) : Bool :=
  decide (f.cdepth ≤ m) && pnodes_cdle m f.children

/-- All creation depths recorded anywhere in the state are at most
`m`. -/
def state_cdle (m : Nat) (s : BState) : Bool :=
  s.stack.all (frame_cdle m) && s.results.all (pnode_cdle m)

theorem pnodes_cdle_iff (m : Nat) :
    ∀ l : List PNode, pnodes_cdle m l = true ↔ ∀ n ∈ l, pnode_cdle m n = true := by
  intro l
  induction l with
  | nil => simp [pnodes_cdle]
  | cons x xs ih =>
    simp only [pnodes_cdle, Bool.and_eq_true, ih, List.mem_cons]
    constructor
    · rintro ⟨hx, hxs⟩ n (rfl | hn)
      · exact hx
      · exact hxs n hn
    · intro h
      exact ⟨h x (Or.inl rfl), fun n hn => h n (Or.inr hn)⟩

theorem pnodes_cdle_append (m : Nat) (a b : List PNode) :
    pnodes_cdle m (a ++ b) = (pnodes_cdle m a && pnodes_cdle m b) := by
  induction a with
  | nil => simp [pnodes_cdle]
  | cons x xs ih => simp [pnodes_cdle, ih, Bool.and_assoc]

theorem mem_of_getLast?_some {α : Type} {l : List α} {a : α}
    (h : l.getLast? = some a) : a ∈ l := by
  induction l with
  | nil => simp [List.getLast?] at h
  | cons x xs ih =>
    cases xs with
    | nil =>
      simp only [List.getLast?_singleton, Option.some_inj] at h
      simp [h]
    | cons y ys =>
      rw [List.getLast?_cons_cons] at h
      exact List.mem_cons_of_mem x (ih h)

theorem mem_of_mem_dropLast {α : Type} {l : List α} {a : α}
    (h : a ∈ l.dropLast) : a ∈ l :=
  (List.dropLast_sublist l).mem h

theorem bstep_cdle (m : Nat) (hm : m ≠ 0) (op : BOp) (s s1 : BState)
    (hmax : s.maxdepth = m) (hok : bstep op s = .ok s1)
    (hinv : state_cdle m s = true) :
    s1.maxdepth = m ∧ state_cdle m s1 = true := by
  simp only [state_cdle, Bool.and_eq_true, List.all_eq_true] at hinv
  obtain ⟨hstack, hres⟩ := hinv
  cases op with
  | push t =>
    simp only [bstep, pushnode] at hok
    split at hok
    · exact absurd hok (by simp)
    · rename_i hc
      rw [hmax] at hc
      have hdep : s.depth ≤ m := by by_contra hgt; exact hc ⟨by omega, hm⟩
      cases hok
      refine ⟨hmax, ?_⟩
      simp only [state_cdle, Bool.and_eq_true, List.all_eq_true, List.mem_cons]
      exact ⟨fun f hf => by
        rcases hf with rfl | hf
        · simp [frame_cdle, pnodes_cdle, hdep]
        · exact hstack f hf, hres⟩
  | pop =>
    simp only [bstep, popnode] at hok
    split at hok
    · exact absurd hok (by simp)
    rcases hstk : s.stack with _ | ⟨fr, rest⟩
    · rw [hstk] at hok; exact absurd hok (by simp)
    rw [hstk] at hok
    have hfr : frame_cdle m fr = true := hstack fr (by rw [hstk]; simp)
    simp only [frame_cdle, Bool.and_eq_true, decide_eq_true_eq] at hfr
    rcases hrest : rest with _ | ⟨parent, rest2⟩
    · rw [hrest] at hok
      cases hok
      refine ⟨hmax, ?_⟩
      simp only [state_cdle, Bool.and_eq_true, List.all_eq_true, List.mem_append,
        List.mem_singleton]
      refine ⟨by simp, fun n hn => ?_⟩
      rcases hn with hn | rfl
      · exact hres n hn
      · simp only [pnode_cdle, Bool.and_eq_true, decide_eq_true_eq]
        exact ⟨hfr.1, hfr.2⟩
    · rw [hrest] at hok
      simp only at hok
      cases hok
      have hpar : frame_cdle m parent = true :=
        hstack parent (by rw [hstk, hrest]; simp)
      simp only [frame_cdle, Bool.and_eq_true, decide_eq_true_eq] at hpar
      refine ⟨hmax, ?_⟩
      simp only [state_cdle, Bool.and_eq_true, List.all_eq_true, List.mem_cons]
      refine ⟨fun f hf => ?_, hres⟩
      rcases hf with rfl | hf
      · simp only [frame_cdle, Bool.and_eq_true, decide_eq_true_eq,
          pnodes_cdle_append]
        refine ⟨hpar.1, hpar.2, ?_⟩
        simp only [pnodes_cdle, pnode_cdle, Bool.and_eq_true, decide_eq_true_eq]
        exact ⟨⟨hfr.1, hfr.2⟩, trivial⟩
      · exact hstack f (by rw [hstk, hrest]; simp [hf])
  | defmerge_push =>
    simp only [bstep] at hok
    split at hok
    · exact absurd hok (by simp)
    rename_i fr rest hstk
    split at hok
    · exact absurd hok (by simp)
    rename_i cur hlast
    split at hok
    · exact absurd hok (by simp)
    split at hok
    · exact absurd hok (by simp)
    rename_i hc
    rw [hmax] at hc
    have hdep : s.depth ≤ m := by by_contra hgt; exact hc ⟨by omega, hm⟩
    cases hok
    have hfr : frame_cdle m fr = true := hstack fr (by rw [hstk]; simp)
    simp only [frame_cdle, Bool.and_eq_true, decide_eq_true_eq] at hfr
    have hcur : pnode_cdle m cur = true :=
      (pnodes_cdle_iff m fr.children).1 hfr.2 cur (mem_of_getLast?_some hlast)
    refine ⟨hmax, ?_⟩
    simp only [state_cdle, Bool.and_eq_true, List.all_eq_true, List.mem_cons]
    refine ⟨fun f hf => ?_, hres⟩
    rcases hf with rfl | rfl | hf
    · simp only [frame_cdle, Bool.and_eq_true, decide_eq_true_eq, pnodes_cdle,
        pnode_cdle, Bool.and_eq_true]
      rcases cur with ⟨ci, ct, cd, cc⟩
      simp only [pnode_cdle, Bool.and_eq_true, decide_eq_true_eq] at hcur
      exact ⟨hdep, ⟨hcur.1, hcur.2⟩, trivial⟩
    · simp only [frame_cdle, Bool.and_eq_true, decide_eq_true_eq]
      refine ⟨hfr.1, ?_⟩
      rw [pnodes_cdle_iff]
      intro n hn
      exact (pnodes_cdle_iff m fr.children).1 hfr.2 n (mem_of_mem_dropLast hn)
    · exact hstack f (by rw [hstk]; simp [hf])
  | defmerge_descend =>
    simp only [bstep] at hok
    split at hok
    · exact absurd hok (by simp)
    rename_i fr rest hstk
    split at hok
    · exact absurd hok (by simp)
    rename_i cur hlast
    split at hok
    · exact absurd hok (by simp)
    split at hok
    · exact absurd hok (by simp)
    rename_i prev hprev
    split at hok
    · exact absurd hok (by simp)
    cases hok
    have hfr : frame_cdle m fr = true := hstack fr (by rw [hstk]; simp)
    simp only [frame_cdle, Bool.and_eq_true, decide_eq_true_eq] at hfr
    have hcur : pnode_cdle m cur = true :=
      (pnodes_cdle_iff m fr.children).1 hfr.2 cur (mem_of_getLast?_some hlast)
    have hprevm : pnode_cdle m prev = true :=
      (pnodes_cdle_iff m fr.children).1 hfr.2 prev
        (mem_of_mem_dropLast (mem_of_getLast?_some hprev))
    refine ⟨hmax, ?_⟩
    simp only [state_cdle, Bool.and_eq_true, List.all_eq_true, List.mem_cons]
    refine ⟨fun f hf => ?_, hres⟩
    rcases hf with rfl | rfl | hf
    · simp only [frame_cdle, Bool.and_eq_true, decide_eq_true_eq,
        pnodes_cdle_append, pnodes_cdle, pnode_cdle]
      rcases prev with ⟨pi, pt, pd, pc⟩
      simp only [pnode_cdle, Bool.and_eq_true, decide_eq_true_eq] at hprevm
      rcases cur with ⟨ci, ct, cd, cc⟩
      simp only [pnode_cdle, Bool.and_eq_true, decide_eq_true_eq] at hcur
      exact ⟨hprevm.1, hprevm.2, ⟨hcur.1, hcur.2⟩, trivial⟩
    · simp only [frame_cdle, Bool.and_eq_true, decide_eq_true_eq]
      refine ⟨hfr.1, ?_⟩
      rw [pnodes_cdle_iff]
      intro n hn
      exact (pnodes_cdle_iff m fr.children).1 hfr.2 n
        (mem_of_mem_dropLast (mem_of_mem_dropLast hn))
    · exact hstack f (by rw [hstk]; simp [hf])

theorem brun_cdle (m : Nat) (hm : m ≠ 0) :
    ∀ (ops : List BOp) (s s1 : BState), s.maxdepth = m →
      brun ops s = .ok s1 → state_cdle m s = true →
      s1.maxdepth = m ∧ state_cdle m s1 = true := by
  intro ops
  induction ops with
  | nil =>
    intro s s1 hmax hok hinv
    simp only [brun] at hok
    cases hok
    exact ⟨hmax, hinv⟩
  | cons op ops ih =>
    intro s s1 hmax hok hinv
    simp only [brun] at hok
    rcases hstep : bstep op s with e | s2
    · rw [hstep] at hok; exact absurd hok (by simp)
    · rw [hstep] at hok
      obtain ⟨hm2, hi2⟩ := bstep_cdle m hm op s s2 hmax hstep hinv
      exact ih s2 s1 hm2 hok hi2

/-- The body ops of the parse of `*a*\n: b\n` with the definition-list
feature on: a one-line PARAGRAPH holding EMPHASIS over NORMAL_TEXT,
then `parse_definition` re-parents it as the DEFINITION_TITLE one
level deeper and adds the DEFINITION_DATA with its text. -/
def c2_body_trace : List BOp :=
  [ .push .paragraph, .push .emphasis, .push .normal_text, .pop, .pop, .pop,
    .defmerge_push, .push .definition_data, .push .normal_text,
    .pop, .pop, .pop ]

/-- C2 counterexample.  A parse with `maxdepth = 3` that succeeds (no
fatal error) yet returns a tree whose deepest node sits at depth 4:
the EMPHASIS content of the one-line paragraph is created at depth 3,
then `parse_definition` re-parents the paragraph one level down, so
the NORMAL_TEXT ends at depth 4 > 3.  (Op trace of the input
`*a*\n: b\n` with the definition-list feature enabled.) -/
theorem C2_depth_counterexample :
    (lowdown_doc_parse_ops [] c2_body_trace 3).toOption.map
      (fun r => pnode_maxdepth r.1) = some 4
    ∧ ¬ (4 ≤ 3) := by
  refine ⟨?_, by decide⟩
  simp [lowdown_doc_parse_ops, c2_body_trace, fresh_doc, brun, bstep,
    pushnode, popnode, bind, Except.bind, Except.toOption, Option.map,
    pnode_maxdepth, pnodes_maxdepth, PNode.t, PNode.id, PNode.cdepth,
    PNode.children, List.getLast?]

/-- C2 amended.  Every node is CREATED at depth at most `m` when
`m = maxdepth ≠ 0` (the returned tree can still contain nodes moved
one deeper by definition-list re-parenting); `pushnode` fails fatally
rather than create a node at a creation depth exceeding `m`; when
`maxdepth = 0` no check is performed; and `lowdown_doc_new` with no
options defaults the maximum to 128. -/
theorem C2_depth_amended :
    (∀ (ops : List BOp) (m : Nat) (s1 : BState), m ≠ 0 →
      brun ops (fresh_doc m) = .ok s1 → state_cdle m s1 = true)
    ∧ (∀ (t : NT) (s : BState), s.maxdepth ≠ 0 → s.depth > s.maxdepth →
      pushnode t s = .error "maximum parse depth exceeded")
    ∧ (∀ (t : NT) (s : BState), s.maxdepth = 0 →
      pushnode t s = .ok { s with
        nodes := s.nodes + 1
        depth := s.depth + 1
        stack := ⟨s.nodes, t, s.depth, []⟩ :: s.stack })
    ∧ lowdown_doc_new_maxdepth none = 128 := by
  refine ⟨?_, ?_, ?_, rfl⟩
  · intro ops m s1 hm hok
    exact (brun_cdle m hm ops (fresh_doc m) s1 rfl hok (by rfl)).2
  · intro t s hm hd
    rw [pushnode, if_pos ⟨hd, hm⟩]
  · intro t s hm
    rw [pushnode, if_neg (by rintro ⟨-, hmm⟩; exact hmm hm)]

/-- Witness for `C2_depth_amended` at concrete inputs: the trace of
the counterexample run keeps all CREATION depths at most 3, a push at
depth 4 with `maxdepth` 3 is fatal, and a push at depth 4 with
`maxdepth` 0 succeeds. -/
theorem C2_depth_amended_witness :
    state_cdle 3 (BState.mk 1 0 3 [] [PNode.mk 0 .doc_header 0 []]) = true
    ∧ pushnode .normal_text (BState.mk 5 4 3 [] []) =
        .error "maximum parse depth exceeded"
    ∧ pushnode .normal_text (BState.mk 5 4 0 [] []) =
        .ok (BState.mk 6 5 0 [⟨5, .normal_text, 4, []⟩] []) := by
  refine ⟨?_, ?_, ?_⟩
  · exact C2_depth_amended.1 [.push .doc_header, .pop] 3
      (BState.mk 1 0 3 [] [PNode.mk 0 .doc_header 0 []]) (by decide)
      (by simp [brun, bstep, pushnode, popnode, fresh_doc])
  · exact C2_depth_amended.2.1 .normal_text (BState.mk 5 4 3 [] [])
      (by decide) (by decide)
  · exact C2_depth_amended.2.2.1 .normal_text (BState.mk 5 4 0 [] []) rfl


/-! ### C1: the driver skeleton -/

theorem getLast?_cons_ne_none {α : Type} (a : α) (l : List α) :
    (a :: l).getLast? ≠ none := by
  induction l generalizing a with
  | nil => simp [List.getLast?]
  | cons b l ih => rw [List.getLast?_cons_cons]; exact ih b

theorem bstep_maxdepth (op : BOp) (s s1 : BState)
    (hok : bstep op s = .ok s1) : s1.maxdepth = s.maxdepth := by
  cases op with
  | push t =>
    simp only [bstep, pushnode] at hok
    split at hok
    · exact absurd hok (by simp)
    · cases hok; rfl
  | pop =>
    simp only [bstep, popnode] at hok
    split at hok
    · exact absurd hok (by simp)
    rcases hstk : s.stack with _ | ⟨fr, rest⟩
    · rw [hstk] at hok; exact absurd hok (by simp)
    rw [hstk] at hok
    rcases hrest : rest with _ | ⟨parent, rest2⟩
    · rw [hrest] at hok; cases hok; rfl
    · rw [hrest] at hok; simp only at hok; cases hok; rfl
  | defmerge_push =>
    simp only [bstep] at hok
    rcases hstk : s.stack with _ | ⟨fr, rest⟩
    · rw [hstk] at hok; exact absurd hok (by simp)
    rw [hstk] at hok
    simp only at hok
    rcases hlast : fr.children.getLast? with _ | cur
    · rw [hlast] at hok; exact absurd hok (by simp)
    rw [hlast] at hok
    simp only at hok
    split at hok
    · exact absurd hok (by simp)
    split at hok
    · exact absurd hok (by simp)
    cases hok; rfl
  | defmerge_descend =>
    simp only [bstep] at hok
    rcases hstk : s.stack with _ | ⟨fr, rest⟩
    · rw [hstk] at hok; exact absurd hok (by simp)
    rw [hstk] at hok
    simp only at hok
    rcases hlast : fr.children.getLast? with _ | cur
    · rw [hlast] at hok; exact absurd hok (by simp)
    rw [hlast] at hok
    simp only at hok
    split at hok
    · exact absurd hok (by simp)
    rcases hprev : fr.children.dropLast.getLast? with _ | prev
    · rw [hprev] at hok; exact absurd hok (by simp)
    rw [hprev] at hok
    simp only at hok
    split at hok
    · exact absurd hok (by simp)
    cases hok; rfl

theorem brun_maxdepth (ops : List BOp) :
    ∀ s s1, brun ops s = .ok s1 → s1.maxdepth = s.maxdepth := by
  induction ops with
  | nil => intro s s1 hok; simp only [brun] at hok; cases hok; rfl
  | cons op ops ih =>
    intro s s1 hok
    simp only [brun] at hok
    rcases hstep : bstep op s with e | s2
    · rw [hstep] at hok; exact absurd hok (by simp)
    · rw [hstep] at hok
      rw [ih s2 s1 hok, bstep_maxdepth op s s2 hstep]

theorem bstep_depth_len (op : BOp) (s s1 : BState)
    (hok : bstep op s = .ok s1) (h : s.depth = s.stack.length) :
    s1.depth = s1.stack.length := by
  cases op with
  | push t =>
    simp only [bstep, pushnode] at hok
    split at hok
    · exact absurd hok (by simp)
    · cases hok; simp [h]
  | pop =>
    simp only [bstep, popnode] at hok
    split at hok
    · exact absurd hok (by simp)
    rcases hstk : s.stack with _ | ⟨fr, rest⟩
    · rw [hstk] at hok; exact absurd hok (by simp)
    rw [hstk] at hok
    rcases hrest : rest with _ | ⟨parent, rest2⟩
    · rw [hrest] at hok
      cases hok
      rw [hstk, hrest] at h
      simp only [List.length_cons, List.length_nil] at h
      simp only [List.length_nil]
      omega
    · rw [hrest] at hok
      simp only at hok
      cases hok
      rw [hstk, hrest] at h
      simp only [List.length_cons] at h ⊢
      omega
  | defmerge_push =>
    simp only [bstep] at hok
    rcases hstk : s.stack with _ | ⟨fr, rest⟩
    · rw [hstk] at hok; exact absurd hok (by simp)
    rw [hstk] at hok
    simp only at hok
    rcases hlast : fr.children.getLast? with _ | cur
    · rw [hlast] at hok; exact absurd hok (by simp)
    rw [hlast] at hok
    simp only at hok
    split at hok
    · exact absurd hok (by simp)
    split at hok
    · exact absurd hok (by simp)
    cases hok
    rw [hstk] at h
    simp only [List.length_cons] at h ⊢
    omega
  | defmerge_descend =>
    simp only [bstep] at hok
    rcases hstk : s.stack with _ | ⟨fr, rest⟩
    · rw [hstk] at hok; exact absurd hok (by simp)
    rw [hstk] at hok
    simp only at hok
    rcases hlast : fr.children.getLast? with _ | cur
    · rw [hlast] at hok; exact absurd hok (by simp)
    rw [hlast] at hok
    simp only at hok
    split at hok
    · exact absurd hok (by simp)
    rcases hprev : fr.children.dropLast.getLast? with _ | prev
    · rw [hprev] at hok; exact absurd hok (by simp)
    rw [hprev] at hok
    simp only at hok
    split at hok
    · exact absurd hok (by simp)
    cases hok
    rw [hstk] at h
    simp only [List.length_cons] at h ⊢
    omega

theorem brun_depth_len (ops : List BOp) :
    ∀ s s1, brun ops s = .ok s1 → s.depth = s.stack.length →
      s1.depth = s1.stack.length := by
  induction ops with
  | nil => intro s s1 hok h; simp only [brun] at hok; cases hok; exact h
  | cons op ops ih =>
    intro s s1 hok h
    simp only [brun] at hok
    rcases hstep : bstep op s with e | s2
    · rw [hstep] at hok; exact absurd hok (by simp)
    · rw [hstep] at hok
      exact ih s2 s1 hok (bstep_depth_len op s s2 hstep h)

/-- Every prefix of the op list keeps the stack at least `h` frames
tall: the parser's recursive calls never pop out of the region they
were invoked in. -/
def stays_above (ops : List BOp) (s : BState) (h : Nat) : Prop :=
  ∀ p sp, p <+: ops → brun p s = .ok sp → h ≤ sp.stack.length

theorem stays_above_cons (op : BOp) (ops : List BOp) (s s1 : BState) (h : Nat)
    (hsa : stays_above (op :: ops) s h) (hok : bstep op s = .ok s1) :
    stays_above ops s1 h := by
  intro p sp hp hrun
  refine hsa (op :: p) sp (List.cons_prefix_cons.mpr ⟨rfl, hp⟩) ?_
  simp only [brun, hok]
  exact hrun

theorem stays_above_self (op : BOp) (ops : List BOp) (s s1 : BState) (h : Nat)
    (hsa : stays_above (op :: ops) s h) (hok : bstep op s = .ok s1) :
    h ≤ s1.stack.length := by
  refine hsa [op] s1 ⟨ops, rfl⟩ ?_
  simp only [brun, hok]

theorem bstep_keep_basic (op : BOp) (s s1 : BState) (hok : bstep op s = .ok s1)
    (f : BFrame) (up low : List BFrame)
    (hsplit : s.stack = up ++ f :: low)
    (hlb : low.length + 1 ≤ s1.stack.length) :
    ∃ up1 f1, s1.stack = up1 ++ f1 :: low ∧ f1.id = f.id ∧ f1.t = f.t ∧
      f1.cdepth = f.cdepth ∧ s1.results = s.results := by
  cases op with
  | push t =>
    simp only [bstep, pushnode] at hok
    split at hok
    · exact absurd hok (by simp)
    cases hok
    exact ⟨⟨s.nodes, t, s.depth, []⟩ :: up, f, by simp [hsplit], rfl, rfl, rfl, rfl⟩
  | pop =>
    simp only [bstep, popnode] at hok
    split at hok
    · exact absurd hok (by simp)
    rw [hsplit] at hok
    rcases up with _ | ⟨u, up2⟩
    · simp only [List.nil_append] at hok
      rcases hlow : low with _ | ⟨pl, low2⟩
      · rw [hlow] at hok
        cases hok
        rw [hlow] at hlb
        simp only [List.length_nil] at hlb
        omega
      · rw [hlow] at hok
        simp only at hok
        cases hok
        rw [hlow] at hlb
        simp only [List.length_cons] at hlb
        omega
    · simp only [List.cons_append] at hok
      rcases up2 with _ | ⟨u2, up3⟩
      · simp only [List.nil_append] at hok
        cases hok
        exact ⟨[], ⟨f.id, f.t, f.cdepth,
          f.children ++ [PNode.mk u.id u.t u.cdepth u.children]⟩,
          by simp, rfl, rfl, rfl, rfl⟩
      · simp only [List.cons_append] at hok
        cases hok
        exact ⟨⟨u2.id, u2.t, u2.cdepth,
          u2.children ++ [PNode.mk u.id u.t u.cdepth u.children]⟩ :: up3, f,
          by simp, rfl, rfl, rfl, rfl⟩
  | defmerge_push =>
    simp only [bstep] at hok
    rw [hsplit] at hok
    rcases up with _ | ⟨u, up2⟩
    · simp only [List.nil_append] at hok
      rcases hlast : f.children.getLast? with _ | cur
      · rw [hlast] at hok; exact absurd hok (by simp)
      rw [hlast] at hok
      simp only at hok
      split at hok
      · exact absurd hok (by simp)
      split at hok
      · exact absurd hok (by simp)
      cases hok
      exact ⟨[⟨s.nodes, NT.definition, s.depth,
        [PNode.mk cur.id NT.definition_title cur.cdepth cur.children]⟩],
        ⟨f.id, f.t, f.cdepth, f.children.dropLast⟩, by simp, rfl, rfl, rfl, rfl⟩
    · simp only [List.cons_append] at hok
      rcases hlast : u.children.getLast? with _ | cur
      · rw [hlast] at hok; exact absurd hok (by simp)
      rw [hlast] at hok
      simp only at hok
      split at hok
      · exact absurd hok (by simp)
      split at hok
      · exact absurd hok (by simp)
      cases hok
      exact ⟨⟨s.nodes, NT.definition, s.depth,
        [PNode.mk cur.id NT.definition_title cur.cdepth cur.children]⟩ ::
        ⟨u.id, u.t, u.cdepth, u.children.dropLast⟩ :: up2, f,
        by simp, rfl, rfl, rfl, rfl⟩
  | defmerge_descend =>
    simp only [bstep] at hok
    rw [hsplit] at hok
    rcases up with _ | ⟨u, up2⟩
    · simp only [List.nil_append] at hok
      rcases hlast : f.children.getLast? with _ | cur
      · rw [hlast] at hok; exact absurd hok (by simp)
      rw [hlast] at hok
      simp only at hok
      split at hok
      · exact absurd hok (by simp)
      rcases hprev : f.children.dropLast.getLast? with _ | prev
      · rw [hprev] at hok; exact absurd hok (by simp)
      rw [hprev] at hok
      simp only at hok
      split at hok
      · exact absurd hok (by simp)
      cases hok
      exact ⟨[⟨prev.id, prev.t, prev.cdepth, prev.children ++
        [PNode.mk cur.id NT.definition_title cur.cdepth cur.children]⟩],
        ⟨f.id, f.t, f.cdepth, f.children.dropLast.dropLast⟩,
        by simp, rfl, rfl, rfl, rfl⟩
    · simp only [List.cons_append] at hok
      rcases hlast : u.children.getLast? with _ | cur
      · rw [hlast] at hok; exact absurd hok (by simp)
      rw [hlast] at hok
      simp only at hok
      split at hok
      · exact absurd hok (by simp)
      rcases hprev : u.children.dropLast.getLast? with _ | prev
      · rw [hprev] at hok; exact absurd hok (by simp)
      rw [hprev] at hok
      simp only at hok
      split at hok
      · exact absurd hok (by simp)
      cases hok
      exact ⟨⟨prev.id, prev.t, prev.cdepth, prev.children ++
        [PNode.mk cur.id NT.definition_title cur.cdepth cur.children]⟩ ::
        ⟨u.id, u.t, u.cdepth, u.children.dropLast.dropLast⟩ :: up2, f,
        by simp, rfl, rfl, rfl, rfl⟩

theorem bstep_keep (op : BOp) (s s1 : BState) (hok : bstep op s = .ok s1)
    (f : BFrame) (hd : PNode) (up low : List BFrame)
    (hsplit : s.stack = up ++ f :: low)
    (hlb : low.length + 1 ≤ s1.stack.length)
    (hhd : f.children.head? = some hd)
    (hht : hd.t ≠ NT.paragraph ∧ hd.t ≠ NT.definition) :
    ∃ up1 f1, s1.stack = up1 ++ f1 :: low ∧ f1.id = f.id ∧ f1.t = f.t ∧
      f1.cdepth = f.cdepth ∧ f1.children.head? = some hd ∧
      s1.results = s.results := by
  obtain ⟨ct, hct⟩ : ∃ ct, f.children = hd :: ct := by
    rcases hch : f.children with _ | ⟨x, ct⟩
    · rw [hch] at hhd; simp at hhd
    · rw [hch] at hhd
      simp only [List.head?_cons, Option.some_inj] at hhd
      exact ⟨ct, by rw [hhd]⟩
  cases op with
  | push t =>
    simp only [bstep, pushnode] at hok
    split at hok
    · exact absurd hok (by simp)
    cases hok
    exact ⟨⟨s.nodes, t, s.depth, []⟩ :: up, f, by simp [hsplit], rfl, rfl, rfl, hhd, rfl⟩
  | pop =>
    simp only [bstep, popnode] at hok
    split at hok
    · exact absurd hok (by simp)
    rw [hsplit] at hok
    rcases up with _ | ⟨u, up2⟩
    · simp only [List.nil_append] at hok
      rcases hlow : low with _ | ⟨pl, low2⟩
      · rw [hlow] at hok
        cases hok
        rw [hlow] at hlb
        simp only [List.length_nil] at hlb
        omega
      · rw [hlow] at hok
        simp only at hok
        cases hok
        rw [hlow] at hlb
        simp only [List.length_cons] at hlb
        omega
    · simp only [List.cons_append] at hok
      rcases up2 with _ | ⟨u2, up3⟩
      · simp only [List.nil_append] at hok
        cases hok
        refine ⟨[], ⟨f.id, f.t, f.cdepth,
          f.children ++ [PNode.mk u.id u.t u.cdepth u.children]⟩,
          by simp, rfl, rfl, rfl, ?_, rfl⟩
        rw [hct]
        rfl
      · simp only [List.cons_append] at hok
        cases hok
        exact ⟨⟨u2.id, u2.t, u2.cdepth,
          u2.children ++ [PNode.mk u.id u.t u.cdepth u.children]⟩ :: up3, f,
          by simp, rfl, rfl, rfl, hhd, rfl⟩
  | defmerge_push =>
    simp only [bstep] at hok
    rw [hsplit] at hok
    rcases up with _ | ⟨u, up2⟩
    · simp only [List.nil_append] at hok
      rcases ct with _ | ⟨c0, ct2⟩
      · have hlast : f.children.getLast? = some hd := by rw [hct]; rfl
        rw [hlast] at hok
        simp only at hok
        rw [if_pos hht.1] at hok
        exact absurd hok (by simp)
      · rcases hlast : f.children.getLast? with _ | cur
        · rw [hct] at hlast
          exact absurd hlast (getLast?_cons_ne_none hd (c0 :: ct2))
        rw [hlast] at hok
        simp only at hok
        split at hok
        · exact absurd hok (by simp)
        split at hok
        · exact absurd hok (by simp)
        cases hok
        refine ⟨[⟨s.nodes, NT.definition, s.depth,
          [PNode.mk cur.id NT.definition_title cur.cdepth cur.children]⟩],
          ⟨f.id, f.t, f.cdepth, f.children.dropLast⟩, by simp, rfl, rfl, rfl, ?_, rfl⟩
        rw [hct]
        rfl
    · simp only [List.cons_append] at hok
      rcases hlast : u.children.getLast? with _ | cur
      · rw [hlast] at hok; exact absurd hok (by simp)
      rw [hlast] at hok
      simp only at hok
      split at hok
      · exact absurd hok (by simp)
      split at hok
      · exact absurd hok (by simp)
      cases hok
      exact ⟨⟨s.nodes, NT.definition, s.depth,
        [PNode.mk cur.id NT.definition_title cur.cdepth cur.children]⟩ ::
        ⟨u.id, u.t, u.cdepth, u.children.dropLast⟩ :: up2, f,
        by simp, rfl, rfl, rfl, hhd, rfl⟩
  | defmerge_descend =>
    simp only [bstep] at hok
    rw [hsplit] at hok
    rcases up with _ | ⟨u, up2⟩
    · simp only [List.nil_append] at hok
      rcases ct with _ | ⟨c0, ct2⟩
      · have hlast : f.children.getLast? = some hd := by rw [hct]; rfl
        rw [hlast] at hok
        simp only at hok
        rw [if_pos hht.1] at hok
        exact absurd hok (by simp)
      · rcases hlast : f.children.getLast? with _ | cur
        · rw [hct] at hlast
          exact absurd hlast (getLast?_cons_ne_none hd (c0 :: ct2))
        rw [hlast] at hok
        simp only at hok
        split at hok
        · exact absurd hok (by simp)
        rcases ct2 with _ | ⟨c1, ct3⟩
        · have hprev : f.children.dropLast.getLast? = some hd := by rw [hct]; rfl
          rw [hprev] at hok
          simp only at hok
          rw [if_pos hht.2] at hok
          exact absurd hok (by simp)
        · rcases hprev : f.children.dropLast.getLast? with _ | prev
          · rw [hct] at hprev
            exact absurd hprev
              (getLast?_cons_ne_none hd ((c0 :: c1 :: ct3).dropLast))
          rw [hprev] at hok
          simp only at hok
          split at hok
          · exact absurd hok (by simp)
          cases hok
          refine ⟨[⟨prev.id, prev.t, prev.cdepth, prev.children ++
            [PNode.mk cur.id NT.definition_title cur.cdepth cur.children]⟩],
            ⟨f.id, f.t, f.cdepth, f.children.dropLast.dropLast⟩,
            by simp, rfl, rfl, rfl, ?_, rfl⟩
          rw [hct]
          rfl
    · simp only [List.cons_append] at hok
      rcases hlast : u.children.getLast? with _ | cur
      · rw [hlast] at hok; exact absurd hok (by simp)
      rw [hlast] at hok
      simp only at hok
      split at hok
      · exact absurd hok (by simp)
      rcases hprev : u.children.dropLast.getLast? with _ | prev
      · rw [hprev] at hok; exact absurd hok (by simp)
      rw [hprev] at hok
      simp only at hok
      split at hok
      · exact absurd hok (by simp)
      cases hok
      exact ⟨⟨prev.id, prev.t, prev.cdepth, prev.children ++
        [PNode.mk cur.id NT.definition_title cur.cdepth cur.children]⟩ ::
        ⟨u.id, u.t, u.cdepth, u.children.dropLast.dropLast⟩ :: up2, f,
        by simp, rfl, rfl, rfl, hhd, rfl⟩

theorem brun_keep_basic (ops : List BOp) :
    ∀ s s1 (f : BFrame) (up low : List BFrame),
      brun ops s = .ok s1 → s.stack = up ++ f :: low →
      stays_above ops s (low.length + 1) →
      ∃ up1 f1, s1.stack = up1 ++ f1 :: low ∧ f1.id = f.id ∧ f1.t = f.t ∧
        f1.cdepth = f.cdepth ∧ s1.results = s.results := by
  induction ops with
  | nil =>
    intro s s1 f up low hok hsplit _
    simp only [brun] at hok
    cases hok
    exact ⟨up, f, hsplit, rfl, rfl, rfl, rfl⟩
  | cons op ops ih =>
    intro s s1 f up low hok hsplit hsa
    simp only [brun] at hok
    rcases hstep : bstep op s with e | s2
    · rw [hstep] at hok; exact absurd hok (by simp)
    rw [hstep] at hok
    obtain ⟨up2, f2, hsplit2, hid2, ht2, hcd2, hres2⟩ :=
      bstep_keep_basic op s s2 hstep f up low hsplit
        (stays_above_self op ops s s2 (low.length + 1) hsa hstep)
    obtain ⟨up1, f1, hsplit1, hid1, ht1, hcd1, hres1⟩ :=
      ih s2 s1 f2 up2 low hok hsplit2 (stays_above_cons op ops s s2 _ hsa hstep)
    exact ⟨up1, f1, hsplit1, hid1.trans hid2, ht1.trans ht2,
      hcd1.trans hcd2, hres1.trans hres2⟩

theorem brun_keep (ops : List BOp) :
    ∀ s s1 (f : BFrame) (hd : PNode) (up low : List BFrame),
      brun ops s = .ok s1 → s.stack = up ++ f :: low →
      stays_above ops s (low.length + 1) →
      f.children.head? = some hd →
      hd.t ≠ NT.paragraph ∧ hd.t ≠ NT.definition →
      ∃ up1 f1, s1.stack = up1 ++ f1 :: low ∧ f1.id = f.id ∧ f1.t = f.t ∧
        f1.cdepth = f.cdepth ∧ f1.children.head? = some hd ∧
        s1.results = s.results := by
  induction ops with
  | nil =>
    intro s s1 f hd up low hok hsplit _ hhd _
    simp only [brun] at hok
    cases hok
    exact ⟨up, f, hsplit, rfl, rfl, rfl, hhd, rfl⟩
  | cons op ops ih =>
    intro s s1 f hd up low hok hsplit hsa hhd hht
    simp only [brun] at hok
    rcases hstep : bstep op s with e | s2
    · rw [hstep] at hok; exact absurd hok (by simp)
    rw [hstep] at hok
    obtain ⟨up2, f2, hsplit2, hid2, ht2, hcd2, hhd2, hres2⟩ :=
      bstep_keep op s s2 hstep f hd up low hsplit
        (stays_above_self op ops s s2 (low.length + 1) hsa hstep) hhd hht
    obtain ⟨up1, f1, hsplit1, hid1, ht1, hcd1, hhd1, hres1⟩ :=
      ih s2 s1 f2 hd up2 low hok hsplit2
        (stays_above_cons op ops s s2 _ hsa hstep) hhd2 hht
    exact ⟨up1, f1, hsplit1, hid1.trans hid2, ht1.trans ht2,
      hcd1.trans hcd2, hhd1, hres1.trans hres2⟩

/-- The frame for the ROOT node pushed first by `lowdown_doc_parse`. -/
def root_frame : BFrame := ⟨0, NT.root, 0, []⟩

/-- The frame for the DOC_HEADER node pushed second. -/
def hdr_frame : BFrame := ⟨1, NT.doc_header, 1, []⟩

/-- The state of `lowdown_doc_parse` after the initial ROOT and
DOC_HEADER pushes, before the metadata pass runs. -/
def doc_parse_s2 (m : Nat) : BState := ⟨2, 2, m, [hdr_frame, root_frame], []⟩

theorem push_root_ok (m : Nat) :
    pushnode NT.root (fresh_doc m) = .ok ⟨1, 1, m, [root_frame], []⟩ := by
  simp only [pushnode, fresh_doc]
  rw [if_neg (by show ¬(0 > m ∧ m ≠ 0); omega)]
  rfl

theorem push_hdr_ok (m : Nat) :
    pushnode NT.doc_header ⟨1, 1, m, [root_frame], []⟩ = .ok (doc_parse_s2 m) := by
  simp only [pushnode]
  rw [if_neg (by show ¬(1 > m ∧ m ≠ 0); omega)]
  rfl

/-- The claim's reading of the final cursor: `doc->current` points
back at the ROOT node when `lowdown_doc_parse` returns. -/
def claim_cursor_at_root (s8 : BState) (root : PNode) : Prop :=
  ∃ fr, s8.stack.head? = some fr ∧ fr.id = root.id

/-- C1: counterexample to "the cursor is back at the root".  On the
empty input the parse succeeds and returns the ROOT node, but the
final `popnode` of the ROOT leaves `doc->current = current->parent =
NULL`: the cursor stack is empty, so it does not point at the root
(or anywhere). -/
theorem C1_cursor_counterexample :
    ∃ root outn s8, lowdown_doc_parse_ops [] [] 128 = .ok (root, outn, s8) ∧
      s8.stack = [] ∧ ¬ claim_cursor_at_root s8 root := by
  refine ⟨PNode.mk 0 NT.root 0
      [PNode.mk 1 NT.doc_header 1 [], PNode.mk 2 NT.doc_footer 1 []],
    3,
    BState.mk 3 0 128 []
      [PNode.mk 0 NT.root 0
        [PNode.mk 1 NT.doc_header 1 [], PNode.mk 2 NT.doc_footer 1 []]],
    ?_, rfl, ?_⟩
  · simp [lowdown_doc_parse_ops, fresh_doc, brun, bstep, pushnode, popnode,
      bind, Except.bind]
  · rintro ⟨fr, hfr, _⟩
    simp at hfr

/-- Shape of a completed `lowdown_doc_parse` run, assuming each of
the two passes never pops below the frame it started in and returns
with its push/pop balance restored. -/
theorem doc_parse_shape (header_ops body_ops : List BOp) (m : Nat)
    (root : PNode) (outn : Nat) (s8 : BState)
    (hok : lowdown_doc_parse_ops header_ops body_ops m = .ok (root, outn, s8))
    (hh_sa : stays_above header_ops (doc_parse_s2 m) 2)
    (hh_bal : ∀ s3, brun header_ops (doc_parse_s2 m) = .ok s3 →
      s3.stack.length = 2)
    (hb_sa : ∀ s3 s4, brun header_ops (doc_parse_s2 m) = .ok s3 →
      popnode s3 = .ok s4 → stays_above body_ops s4 1)
    (hb_bal : ∀ s3 s4 s5, brun header_ops (doc_parse_s2 m) = .ok s3 →
      popnode s3 = .ok s4 → brun body_ops s4 = .ok s5 →
      s5.stack.length = 1) :
    root.t = NT.root ∧ root.cdepth = 0 ∧
    root.children.head?.map PNode.t = some NT.doc_header ∧
    root.children.getLast?.map PNode.t = some NT.doc_footer ∧
    outn = s8.nodes ∧ s8.depth = 0 ∧ s8.stack = [] ∧ s8.results = [root] := by
  simp only [lowdown_doc_parse_ops, bind, Except.bind, push_root_ok,
    push_hdr_ok] at hok
  rcases h3 : brun header_ops (doc_parse_s2 m) with e | s3
  · rw [h3] at hok; exact absurd hok (by simp)
  rw [h3] at hok
  simp only at hok
  have hmax3 : s3.maxdepth = m := brun_maxdepth _ _ _ h3
  have hdl3 : s3.depth = s3.stack.length := brun_depth_len _ _ _ h3 rfl
  obtain ⟨up3, f3, hs3, hid3, ht3, hcd3, hres3⟩ :=
    brun_keep_basic header_ops (doc_parse_s2 m) s3 hdr_frame [] [root_frame]
      h3 rfl hh_sa
  have hres3n : s3.results = [] := by rw [hres3]; rfl
  have hlen3 := hh_bal s3 h3
  rw [hs3] at hlen3
  simp only [List.length_append, List.length_cons, List.length_nil] at hlen3
  have hup3 : up3 = [] := List.length_eq_zero.mp (by omega)
  subst hup3
  simp only [List.nil_append] at hs3
  have hdep3 : s3.depth = 2 := by rw [hdl3, hs3]; rfl
  have h4v : popnode s3 = .ok (BState.mk s3.nodes 1 m
      [⟨0, NT.root, 0, [PNode.mk f3.id f3.t f3.cdepth f3.children]⟩] []) := by
    simp only [popnode, hs3, hdep3, hmax3, hres3n, root_frame]
    rfl
  rw [h4v] at hok
  simp only at hok
  have hnt3 : (PNode.mk f3.id f3.t f3.cdepth f3.children).t = NT.doc_header := by
    show f3.t = _
    rw [ht3]
    rfl
  rcases h5 : brun body_ops (BState.mk s3.nodes 1 m
      [⟨0, NT.root, 0, [PNode.mk f3.id f3.t f3.cdepth f3.children]⟩] [])
    with e | s5
  · rw [h5] at hok; exact absurd hok (by simp)
  rw [h5] at hok
  simp only at hok
  have hmax5 : s5.maxdepth = m := brun_maxdepth _ _ _ h5
  have hdl5 : s5.depth = s5.stack.length := brun_depth_len _ _ _ h5 rfl
  obtain ⟨up5, f5, hs5, hid5, ht5, hcd5, hhd5, hres5⟩ :=
    brun_keep body_ops _ s5
      ⟨0, NT.root, 0, [PNode.mk f3.id f3.t f3.cdepth f3.children]⟩
      (PNode.mk f3.id f3.t f3.cdepth f3.children) [] [] h5 rfl
      (hb_sa s3 _ h3 h4v) rfl
      ⟨by rw [hnt3]; decide, by rw [hnt3]; decide⟩
  have hres5n : s5.results = [] := by rw [hres5]
  have hlen5 := hb_bal s3 _ s5 h3 h4v h5
  rw [hs5] at hlen5
  simp only [List.length_append, List.length_cons, List.length_nil] at hlen5
  have hup5 : up5 = [] := List.length_eq_zero.mp (by omega)
  subst hup5
  simp only [List.nil_append] at hs5
  have hdep5 : s5.depth = 1 := by rw [hdl5, hs5]; rfl
  have h6v : pushnode NT.doc_footer s5 = .ok (BState.mk (s5.nodes + 1) 2 m
      [⟨s5.nodes, NT.doc_footer, 1, []⟩, f5] []) := by
    simp only [pushnode, hdep5, hmax5, hs5, hres5n]
    rw [if_neg (by show ¬(1 > m ∧ m ≠ 0); omega)]
  rw [h6v] at hok
  simp only at hok
  have h7v : popnode (BState.mk (s5.nodes + 1) 2 m
      [⟨s5.nodes, NT.doc_footer, 1, []⟩, f5] []) =
      .ok (BState.mk (s5.nodes + 1) 1 m
        [⟨f5.id, f5.t, f5.cdepth,
          f5.children ++ [PNode.mk s5.nodes NT.doc_footer 1 []]⟩] []) := rfl
  rw [h7v] at hok
  simp only at hok
  have h8v : popnode (BState.mk (s5.nodes + 1) 1 m
      [⟨f5.id, f5.t, f5.cdepth,
        f5.children ++ [PNode.mk s5.nodes NT.doc_footer 1 []]⟩] []) =
      .ok (BState.mk (s5.nodes + 1) 0 m []
        [PNode.mk f5.id f5.t f5.cdepth
          (f5.children ++ [PNode.mk s5.nodes NT.doc_footer 1 []])]) := rfl
  rw [h8v] at hok
  simp only [List.head?_cons, Except.ok.injEq, Prod.mk.injEq] at hok
  obtain ⟨hroot, houtn, hs8⟩ := hok
  obtain ⟨ct5, hct5⟩ : ∃ ct5, f5.children =
      PNode.mk f3.id f3.t f3.cdepth f3.children :: ct5 := by
    rcases hch : f5.children with _ | ⟨x, ct5⟩
    · rw [hch] at hhd5; simp at hhd5
    · rw [hch] at hhd5
      simp only [List.head?_cons, Option.some_inj] at hhd5
      exact ⟨ct5, by rw [hhd5]⟩
  subst hroot
  subst houtn
  subst hs8
  refine ⟨?_, ?_, ?_, ?_, rfl, rfl, rfl, rfl⟩
  · show f5.t = NT.root
    rw [ht5]
  · show f5.cdepth = 0
    rw [hcd5]
  · show ((f5.children ++ _).head?).map PNode.t = _
    rw [hct5]
    simp only [List.cons_append, List.head?_cons]
    show some (PNode.mk f3.id f3.t f3.cdepth f3.children).t = _
    rw [hnt3]
  · show ((f5.children ++ [PNode.mk s5.nodes NT.doc_footer 1 []]).getLast?).map
      PNode.t = _
    rw [List.getLast?_concat]
    rfl


/-- C1 (amended).  Under the structural conditions the parser's
recursion guarantees for the two passes (each pass never pops below
the frame it was started in and returns with its push/pop balance
restored), `lowdown_doc_parse` returns a non-null ROOT node created
at depth 0 whose first child is the DOC_HEADER and whose last child
is the DOC_FOOTER, the out-parameter receives the node count, and at
return `doc->depth == 0` while `doc->current` is NULL (the root's
parent), not the root itself as the spec claims. -/
theorem C1_doc_parse_amended (header_ops body_ops : List BOp) (m : Nat)
    (root : PNode) (outn : Nat) (s8 : BState)
    (hok : lowdown_doc_parse_ops header_ops body_ops m = .ok (root, outn, s8))
    (hh_sa : stays_above header_ops (doc_parse_s2 m) 2)
    (hh_bal : ∀ s3, brun header_ops (doc_parse_s2 m) = .ok s3 →
      s3.stack.length = 2)
    (hb_sa : ∀ s3 s4, brun header_ops (doc_parse_s2 m) = .ok s3 →
      popnode s3 = .ok s4 → stays_above body_ops s4 1)
    (hb_bal : ∀ s3 s4 s5, brun header_ops (doc_parse_s2 m) = .ok s3 →
      popnode s3 = .ok s4 → brun body_ops s4 = .ok s5 →
      s5.stack.length = 1) :
    root.t = NT.root ∧ root.cdepth = 0 ∧
    root.children.head?.map PNode.t = some NT.doc_header ∧
    root.children.getLast?.map PNode.t = some NT.doc_footer ∧
    outn = s8.nodes ∧ s8.depth = 0 ∧ s8.stack = [] ∧ s8.results = [root] :=
  doc_parse_shape header_ops body_ops m root outn s8 hok hh_sa hh_bal hb_sa hb_bal

theorem C1_doc_parse_amended_witness :
    (PNode.mk 0 NT.root 0
      [PNode.mk 1 NT.doc_header 1 [], PNode.mk 2 NT.doc_footer 1 []]).t = NT.root ∧
    (PNode.mk 0 NT.root 0
      [PNode.mk 1 NT.doc_header 1 [], PNode.mk 2 NT.doc_footer 1 []]).cdepth = 0 ∧
    ((PNode.mk 0 NT.root 0
      [PNode.mk 1 NT.doc_header 1 [],
       PNode.mk 2 NT.doc_footer 1 []]).children.head?).map PNode.t =
      some NT.doc_header ∧
    ((PNode.mk 0 NT.root 0
      [PNode.mk 1 NT.doc_header 1 [],
       PNode.mk 2 NT.doc_footer 1 []]).children.getLast?).map PNode.t =
      some NT.doc_footer ∧
    3 = (BState.mk 3 0 128 []
      [PNode.mk 0 NT.root 0
        [PNode.mk 1 NT.doc_header 1 [], PNode.mk 2 NT.doc_footer 1 []]]).nodes ∧
    (BState.mk 3 0 128 []
      [PNode.mk 0 NT.root 0
        [PNode.mk 1 NT.doc_header 1 [],
         PNode.mk 2 NT.doc_footer 1 []]]).depth = 0 ∧
    (BState.mk 3 0 128 []
      [PNode.mk 0 NT.root 0
        [PNode.mk 1 NT.doc_header 1 [],
         PNode.mk 2 NT.doc_footer 1 []]]).stack = [] ∧
    (BState.mk 3 0 128 []
      [PNode.mk 0 NT.root 0
        [PNode.mk 1 NT.doc_header 1 [],
         PNode.mk 2 NT.doc_footer 1 []]]).results =
      [PNode.mk 0 NT.root 0
        [PNode.mk 1 NT.doc_header 1 [], PNode.mk 2 NT.doc_footer 1 []]] := by
  have hok : lowdown_doc_parse_ops [] [] 128 = .ok
      (PNode.mk 0 NT.root 0
        [PNode.mk 1 NT.doc_header 1 [], PNode.mk 2 NT.doc_footer 1 []],
       3,
       BState.mk 3 0 128 []
        [PNode.mk 0 NT.root 0
          [PNode.mk 1 NT.doc_header 1 [], PNode.mk 2 NT.doc_footer 1 []]]) := by
    simp [lowdown_doc_parse_ops, fresh_doc, brun, bstep, pushnode, popnode,
      bind, Except.bind]
  refine C1_doc_parse_amended [] [] 128 _ 3 _ hok ?_ ?_ ?_ ?_
  · intro p sp hp hrun
    rw [List.prefix_nil.mp hp] at hrun
    cases hrun
    decide
  · intro s3 h
    cases h
    rfl
  · intro s3 s4 h3 h4
    cases h3
    cases h4
    intro p sp hp hrun
    rw [List.prefix_nil.mp hp] at hrun
    cases hrun
    decide
  · intro s3 s4 s5 h3 h4 h5
    cases h3
    cases h4
    cases h5
    rfl

/-! ### C6: node ids and the node count -/

mutual
/-- The multiset of `id` fields in a finished subtree. -/
def pnode_idm : PNode → Multiset Nat
  | .mk i _ _ cs => {i} + pnodes_idm cs

/-- The multiset of `id` fields in a forest of finished subtrees. -/
def pnodes_idm : List PNode → Multiset Nat
  | [] => 0
  | n :: ns => pnode_idm n + pnodes_idm ns
end

mutual
/-- The number of nodes in a finished subtree. -/
def pnode_count : PNode → Nat
  | .mk _ _ _ cs => 1 + pnodes_count cs

/-- The number of nodes in a forest of finished subtrees. -/
def pnodes_count : List PNode → Nat
  | [] => 0
  | n :: ns => pnode_count n + pnodes_count ns
end

/-- The multiset of `id` fields reachable from an open frame. -/
def frame_idm (f : BFrame) : Multiset Nat := {f.id} + pnodes_idm f.children

/-- The multiset of `id` fields reachable from the cursor stack. -/
def stack_idm : List BFrame → Multiset Nat
  | [] => 0
  | f :: fs => frame_idm f + stack_idm fs

/-- Every `id` held anywhere in the parser state. -/
def state_idm (s : BState) : Multiset Nat :=
  stack_idm s.stack + pnodes_idm s.results

mutual
theorem pnode_idm_card : ∀ n : PNode, (pnode_idm n).card = pnode_count n
  | .mk i t d cs => by
    simp [pnode_idm, pnode_count, pnodes_idm_card cs, Nat.add_comm]
theorem pnodes_idm_card : ∀ l : List PNode, (pnodes_idm l).card = pnodes_count l
  | [] => by simp [pnodes_idm, pnodes_count]
  | n :: ns => by
    simp [pnodes_idm, pnodes_count, pnode_idm_card n, pnodes_idm_card ns]
end

theorem pnodes_idm_append (a b : List PNode) :
    pnodes_idm (a ++ b) = pnodes_idm a + pnodes_idm b := by
  induction a with
  | nil => simp [pnodes_idm]
  | cons x xs ih => simp [pnodes_idm, ih, add_assoc]

theorem dropLast_append_last {α : Type} :
    ∀ (l : List α) (a : α), l.getLast? = some a → l.dropLast ++ [a] = l
  | [], a => by intro h; simp [List.getLast?] at h
  | [x], a => by
    intro h
    simp only [List.getLast?_singleton, Option.some_inj] at h
    rw [h]
    rfl
  | x :: y :: l, a => by
    intro h
    rw [List.getLast?_cons_cons] at h
    have ih := dropLast_append_last (y :: l) a h
    calc (x :: y :: l).dropLast ++ [a]
        = x :: ((y :: l).dropLast ++ [a]) := rfl
      _ = x :: (y :: l) := by rw [ih]

theorem bstep_idm (op : BOp) (s s1 : BState) (hok : bstep op s = .ok s1)
    (hinv : state_idm s = Multiset.range s.nodes) :
    state_idm s1 = Multiset.range s1.nodes := by
  cases op with
  | push t =>
    simp only [bstep, pushnode] at hok
    split at hok
    · exact absurd hok (by simp)
    cases hok
    simp only [state_idm, stack_idm, frame_idm, pnodes_idm]
    rw [Multiset.range_succ, ← Multiset.singleton_add, ← hinv]
    simp only [state_idm]
    abel
  | pop =>
    simp only [bstep, popnode] at hok
    split at hok
    · exact absurd hok (by simp)
    rcases hstk : s.stack with _ | ⟨fr, rest⟩
    · rw [hstk] at hok; exact absurd hok (by simp)
    rw [hstk] at hok
    rcases hrest : rest with _ | ⟨parent, rest2⟩
    · rw [hrest] at hok
      cases hok
      simp only [state_idm, stack_idm, frame_idm, pnodes_idm, pnode_idm,
        pnodes_idm_append]
      rw [← hinv]
      simp only [state_idm, hstk, hrest, stack_idm, frame_idm]
      abel
    · rw [hrest] at hok
      simp only at hok
      cases hok
      simp only [state_idm, stack_idm, frame_idm, pnodes_idm, pnode_idm,
        pnodes_idm_append]
      rw [← hinv]
      simp only [state_idm, hstk, hrest, stack_idm, frame_idm]
      abel
  | defmerge_push =>
    simp only [bstep] at hok
    rcases hstk : s.stack with _ | ⟨fr, rest⟩
    · rw [hstk] at hok; exact absurd hok (by simp)
    rw [hstk] at hok
    simp only at hok
    rcases hlast : fr.children.getLast? with _ | cur
    · rw [hlast] at hok; exact absurd hok (by simp)
    rw [hlast] at hok
    simp only at hok
    split at hok
    · exact absurd hok (by simp)
    split at hok
    · exact absurd hok (by simp)
    rcases cur with ⟨ci, ct', cd', cc'⟩
    cases hok
    have hdec : fr.children.dropLast ++ [PNode.mk ci ct' cd' cc'] = fr.children :=
      dropLast_append_last _ _ hlast
    have hexp : pnodes_idm fr.children =
        pnodes_idm fr.children.dropLast + ({ci} + pnodes_idm cc') := by
      conv_lhs => rw [← hdec]
      simp [pnodes_idm_append, pnodes_idm, pnode_idm]
    simp only [state_idm, stack_idm, frame_idm, pnodes_idm, pnode_idm]
    rw [Multiset.range_succ, ← Multiset.singleton_add, ← hinv]
    simp only [state_idm, hstk, stack_idm, frame_idm, hexp, PNode.id,
      PNode.children]
    abel
  | defmerge_descend =>
    simp only [bstep] at hok
    rcases hstk : s.stack with _ | ⟨fr, rest⟩
    · rw [hstk] at hok; exact absurd hok (by simp)
    rw [hstk] at hok
    simp only at hok
    rcases hlast : fr.children.getLast? with _ | cur
    · rw [hlast] at hok; exact absurd hok (by simp)
    rw [hlast] at hok
    simp only at hok
    split at hok
    · exact absurd hok (by simp)
    rcases hprev : fr.children.dropLast.getLast? with _ | prev
    · rw [hprev] at hok; exact absurd hok (by simp)
    rw [hprev] at hok
    simp only at hok
    split at hok
    · exact absurd hok (by simp)
    rcases cur with ⟨ci, ct', cd', cc'⟩
    rcases prev with ⟨pi, pt', pd', pc'⟩
    cases hok
    have hdec : fr.children.dropLast ++ [PNode.mk ci ct' cd' cc'] = fr.children :=
      dropLast_append_last _ _ hlast
    have hdec2 : fr.children.dropLast.dropLast ++ [PNode.mk pi pt' pd' pc'] =
        fr.children.dropLast :=
      dropLast_append_last _ _ hprev
    have hexp2 : pnodes_idm fr.children.dropLast =
        pnodes_idm fr.children.dropLast.dropLast + ({pi} + pnodes_idm pc') := by
      conv_lhs => rw [← hdec2]
      simp [pnodes_idm_append, pnodes_idm, pnode_idm]
    have hexp : pnodes_idm fr.children =
        pnodes_idm fr.children.dropLast.dropLast +
          (({pi} + pnodes_idm pc') + ({ci} + pnodes_idm cc')) := by
      conv_lhs => rw [← hdec]
      rw [pnodes_idm_append, hexp2]
      simp [pnodes_idm, pnode_idm, add_assoc]
    simp only [state_idm, stack_idm, frame_idm, pnodes_idm, pnode_idm,
      pnodes_idm_append]
    rw [← hinv]
    simp only [state_idm, hstk, stack_idm, frame_idm, hexp, PNode.id,
      PNode.children]
    abel

theorem brun_idm (ops : List BOp) :
    ∀ s s1, brun ops s = .ok s1 → state_idm s = Multiset.range s.nodes →
      state_idm s1 = Multiset.range s1.nodes := by
  induction ops with
  | nil => intro s s1 hok h; simp only [brun] at hok; cases hok; exact h
  | cons op ops ih =>
    intro s s1 hok h
    simp only [brun] at hok
    rcases hstep : bstep op s with e | s2
    · rw [hstep] at hok; exact absurd hok (by simp)
    · rw [hstep] at hok
      exact ih s2 s1 hok (bstep_idm op s s2 hstep h)


theorem doc_parse_idm (header_ops body_ops : List BOp) (m : Nat)
    (root : PNode) (outn : Nat) (s8 : BState)
    (hok : lowdown_doc_parse_ops header_ops body_ops m = .ok (root, outn, s8)) :
    state_idm s8 = Multiset.range s8.nodes ∧ s8.results.head? = some root := by
  simp only [lowdown_doc_parse_ops, bind, Except.bind] at hok
  rcases h1 : pushnode NT.root (fresh_doc m) with e | t1
  · rw [h1] at hok; exact absurd hok (by simp)
  rw [h1] at hok
  simp only at hok
  have i1 : state_idm t1 = Multiset.range t1.nodes :=
    bstep_idm (BOp.push NT.root) (fresh_doc m) t1 h1
      (by simp [state_idm, stack_idm, pnodes_idm, fresh_doc])
  rcases h2 : pushnode NT.doc_header t1 with e | t2
  · rw [h2] at hok; exact absurd hok (by simp)
  rw [h2] at hok
  simp only at hok
  have i2 : state_idm t2 = Multiset.range t2.nodes :=
    bstep_idm (BOp.push NT.doc_header) t1 t2 h2 i1
  rcases h3 : brun header_ops t2 with e | t3
  · rw [h3] at hok; exact absurd hok (by simp)
  rw [h3] at hok
  simp only at hok
  have i3 := brun_idm header_ops t2 t3 h3 i2
  rcases h4 : popnode t3 with e | t4
  · rw [h4] at hok; exact absurd hok (by simp)
  rw [h4] at hok
  simp only at hok
  have i4 : state_idm t4 = Multiset.range t4.nodes :=
    bstep_idm BOp.pop t3 t4 h4 i3
  rcases h5 : brun body_ops t4 with e | t5
  · rw [h5] at hok; exact absurd hok (by simp)
  rw [h5] at hok
  simp only at hok
  have i5 := brun_idm body_ops t4 t5 h5 i4
  rcases h6 : pushnode NT.doc_footer t5 with e | t6
  · rw [h6] at hok; exact absurd hok (by simp)
  rw [h6] at hok
  simp only at hok
  have i6 : state_idm t6 = Multiset.range t6.nodes :=
    bstep_idm (BOp.push NT.doc_footer) t5 t6 h6 i5
  rcases h7 : popnode t6 with e | t7
  · rw [h7] at hok; exact absurd hok (by simp)
  rw [h7] at hok
  simp only at hok
  have i7 : state_idm t7 = Multiset.range t7.nodes :=
    bstep_idm BOp.pop t6 t7 h7 i6
  rcases h8 : popnode t7 with e | t8
  · rw [h8] at hok; exact absurd hok (by simp)
  rw [h8] at hok
  simp only at hok
  have i8 : state_idm t8 = Multiset.range t8.nodes :=
    bstep_idm BOp.pop t7 t8 h8 i7
  rcases hr : t8.results.head? with _ | r
  · rw [hr] at hok; exact absurd hok (by simp)
  rw [hr] at hok
  simp only [Except.ok.injEq, Prod.mk.injEq] at hok
  obtain ⟨hroot, houtn, hs8⟩ := hok
  subst hs8
  subst hroot
  exact ⟨i8, hr⟩

/-- C6.  Under the pass-structure conditions of the driver, the node
count written through the out-pointer equals the number of nodes in
the returned tree, and the node ids are exactly `0 .. count-1`
(pairwise distinct). -/
theorem C6_node_ids (header_ops body_ops : List BOp) (m : Nat)
    (root : PNode) (outn : Nat) (s8 : BState)
    (hok : lowdown_doc_parse_ops header_ops body_ops m = .ok (root, outn, s8))
    (hh_sa : stays_above header_ops (doc_parse_s2 m) 2)
    (hh_bal : ∀ s3, brun header_ops (doc_parse_s2 m) = .ok s3 →
      s3.stack.length = 2)
    (hb_sa : ∀ s3 s4, brun header_ops (doc_parse_s2 m) = .ok s3 →
      popnode s3 = .ok s4 → stays_above body_ops s4 1)
    (hb_bal : ∀ s3 s4 s5, brun header_ops (doc_parse_s2 m) = .ok s3 →
      popnode s3 = .ok s4 → brun body_ops s4 = .ok s5 →
      s5.stack.length = 1) :
    pnode_count root = outn ∧
    pnode_idm root = Multiset.range outn ∧
    (pnode_idm root).Nodup := by
  obtain ⟨-, -, -, -, houtn, -, hstk8, hres8⟩ :=
    doc_parse_shape header_ops body_ops m root outn s8 hok hh_sa hh_bal
      hb_sa hb_bal
  obtain ⟨hidm, -⟩ := doc_parse_idm header_ops body_ops m root outn s8 hok
  have hroot_idm : pnode_idm root = Multiset.range s8.nodes := by
    rw [← hidm, state_idm, hstk8, hres8]
    simp [stack_idm, pnodes_idm]
  refine ⟨?_, ?_, ?_⟩
  · have hc := congrArg Multiset.card hroot_idm
    rw [pnode_idm_card, Multiset.card_range] at hc
    rw [hc, houtn]
  · rw [hroot_idm, houtn]
  · rw [hroot_idm]
    exact Multiset.nodup_range s8.nodes

theorem C6_node_ids_witness :
    pnode_count (PNode.mk 0 NT.root 0
      [PNode.mk 1 NT.doc_header 1 [], PNode.mk 2 NT.doc_footer 1 []]) = 3 ∧
    pnode_idm (PNode.mk 0 NT.root 0
      [PNode.mk 1 NT.doc_header 1 [], PNode.mk 2 NT.doc_footer 1 []]) =
      Multiset.range 3 ∧
    (pnode_idm (PNode.mk 0 NT.root 0
      [PNode.mk 1 NT.doc_header 1 [], PNode.mk 2 NT.doc_footer 1 []])).Nodup := by
  have hok : lowdown_doc_parse_ops [] [] 128 = .ok
      (PNode.mk 0 NT.root 0
        [PNode.mk 1 NT.doc_header 1 [], PNode.mk 2 NT.doc_footer 1 []],
       3,
       BState.mk 3 0 128 []
        [PNode.mk 0 NT.root 0
          [PNode.mk 1 NT.doc_header 1 [], PNode.mk 2 NT.doc_footer 1 []]]) := by
    simp [lowdown_doc_parse_ops, fresh_doc, brun, bstep, pushnode, popnode,
      bind, Except.bind]
  refine C6_node_ids [] [] 128 _ 3 _ hok ?_ ?_ ?_ ?_
  · intro p sp hp hrun
    rw [List.prefix_nil.mp hp] at hrun
    cases hrun
    decide
  · intro s3 h
    cases h
    rfl
  · intro s3 s4 h3 h4
    cases h3
    cases h4
    intro p sp hp hrun
    rw [List.prefix_nil.mp hp] at hrun
    cases hrun
    decide
  · intro s3 s4 s5 h3 h4 h5
    cases h3
    cases h4
    cases h5
    rfl

/-! ## The inline layer

The functional model of `parse_inline` and its character handlers.
Handlers receive the whole buffer plus an absolute position `pos`
(so that `data[-1]` reads, used by `char_emphasis` and
`char_linebreak`, are `bget buf (pos - 1)`), the `offset` and `size`
arguments of the C handler, and the current sibling list `acc` of
`doc->current`; they return the consumed byte count (0 = no action,
as in the source) and the updated sibling list. -/

/-- The `doc->ext_flags` bits consulted by the embedded inline
handlers: `LOWDOWN_NOINTEM`, `LOWDOWN_STRIKE`, `LOWDOWN_HILITE`,
`LOWDOWN_MATH`, `LOWDOWN_COMMONMARK`. -/
structure Flags where
  nointem : Bool
  strike : Bool
  hilite : Bool
  math : Bool
  commonmark : Bool
deriving DecidableEq, Repr

/-- All extensions off. -/
def flags0 : Flags := ⟨false, false, false, false, false⟩

/-- `enum markdown_char_t`, the handler selector stored in
`doc->active_char[]`. -/
inductive MDChar where
  | none | emphasis | codespan | linebreak | link | image | langle
  | escape | entity | math
deriving DecidableEq, Repr

/-- The `doc->active_char` table as `lowdown_doc_new` fills it for a
doc whose feature set is described by `Flags` (so `LOWDOWN_AUTOLINK`
and `LOWDOWN_SUPER`, which are not `Flags` fields, are off and the
`:`/`@`/`w`/`^` entries stay inactive).  `[`, `!` and `<` are active
unconditionally and select `char_link`, `char_image` and
`char_langle_tag`; those three handlers are outside this model, so
every `parse_inline` theorem requires its input bytes to be inactive
(`active_char_simple fl b = .none`), which excludes them. -/
def active_char_simple (fl : Flags) (b : Nat) : MDChar :=
  if b = 42 then .emphasis
  else if b = 95 then .emphasis
  else if b = 126 then (if fl.strike then .emphasis else .none)
  else if b = 61 then (if fl.hilite then .emphasis else .none)
  else if b = 96 then .codespan
  else if b = 10 then .linebreak
  else if b = 91 then .link
  else if b = 33 then .image
  else if b = 60 then .langle
  else if b = 92 then .escape
  else if b = 38 then .entity
  else if b = 36 then (if fl.math then .math else .none)
  else .none

/-- The count of consecutive backslashes ending just before `loc`:
the loop `while (i >= 1 && data[i-1] == '\\') i--` of `is_escaped`. -/
def is_escaped_go (buf : List Nat) (pos : Nat) : Nat → Nat
  | 0 => 0
  | i + 1 => if bget buf (pos + i) = 92 then is_escaped_go buf pos i + 1 else 0

/-- `is_escaped(data, loc)`: an odd number of preceding backslashes
escapes `data[loc]`. -/
def is_escaped (buf : List Nat) (pos loc : Nat) : Bool :=
  is_escaped_go buf pos loc % 2 = 1

/-- First inner loop of `find_emph_char`: advance while the byte is
none of `c`, `[`, `` ` ``; `r = size - i`. -/
def fec_scan1 (buf : List Nat) (pos c : Nat) : Nat → Nat → Nat
  | 0, i => i
  | r + 1, i =>
    if bget buf (pos + i) = c ∨ bget buf (pos + i) = 91 ∨ bget buf (pos + i) = 96
    then i
    else fec_scan1 buf pos c r (i + 1)

/-- The codespan-skipping loop of `find_emph_char`: scan for
`span_nb` consecutive backticks, remembering in `tmp` the first
occurrence of `c`; returns the final `(i, bt, tmp)`; `r = size - i`. -/
def fec_cs (buf : List Nat) (pos c span_nb : Nat) :
    Nat → Nat → Nat → Nat → Nat × Nat × Nat
  | 0, i, bt, tmp => (i, bt, tmp)
  | r + 1, i, bt, tmp =>
    if bt < span_nb then
      fec_cs buf pos c span_nb r (i + 1)
        (if bget buf (pos + i) = 96 then bt + 1 else 0)
        (if tmp = 0 ∧ bget buf (pos + i) = c then i else tmp)
    else (i, bt, tmp)

/-- The link-skipping scans of `find_emph_char`: advance to byte
`cc`, remembering in `tmp` the first occurrence of `c`;
`r = size - i`. -/
def fec_scanto (buf : List Nat) (pos c cc : Nat) : Nat → Nat → Nat → Nat × Nat
  | 0, i, tmp => (i, tmp)
  | r + 1, i, tmp =>
    if bget buf (pos + i) = cc then (i, tmp)
    else fec_scanto buf pos c cc r (i + 1)
      (if tmp = 0 ∧ bget buf (pos + i) = c then i else tmp)

/-- The outer loop of `find_emph_char`, one fuel unit per iteration
(each iteration advances `i`, so `2*size + 4` units suffice). -/
def fec_main (buf : List Nat) (pos size c : Nat) : Nat → Nat → Nat
  | 0, _ => 0
  | k + 1, i =>
    if i < size then
      let i1 := fec_scan1 buf pos c (size - i) i
      if i1 = size then 0
      else if is_escaped buf pos i1 then fec_main buf pos size c k (i1 + 1)
      else if bget buf (pos + i1) = c then i1
      else if bget buf (pos + i1) = 96 then
        let i2 := run_len buf pos size 96 i1
        if i2 ≥ size then 0
        else
          let res := fec_cs buf pos c (i2 - i1) (size - i2) i2 0 0
          if res.2.1 < i2 - i1 ∧ res.1 ≥ size then res.2.2
          else fec_main buf pos size c k res.1
      else
        let r1 := fec_scanto buf pos c 93 (size - (i1 + 1)) (i1 + 1) 0
        let i3 := r1.1 + 1
        let i4 := skip_xisspace buf pos size i3
        if i4 ≥ size then r1.2
        else if bget buf (pos + i4) = 91 then
          let r2 := fec_scanto buf pos c 93 (size - (i4 + 1)) (i4 + 1) r1.2
          if r2.1 ≥ size then r2.2
          else fec_main buf pos size c k (r2.1 + 1)
        else if bget buf (pos + i4) = 40 then
          let r2 := fec_scanto buf pos c 41 (size - (i4 + 1)) (i4 + 1) r1.2
          if r2.1 ≥ size then r2.2
          else fec_main buf pos size c k (r2.1 + 1)
        else
          if r1.2 ≠ 0 then r1.2 else fec_main buf pos size c k i4
    else 0

/-- `find_emph_char(data, size, c)`: offset of the next unescaped
`c`, skipping code spans and links; 0 when none is found. -/
def find_emph_char (buf : List Nat) (pos size c : Nat) : Nat :=
  fec_main buf pos size c (2 * size + 4) 0

/-- The trim loop of `char_linebreak`:
`while (b->size && b->data[b->size - 1] == ' ') b->size--;`. -/
def rstrip_spaces (s : List Nat) : List Nat :=
  (s.reverse.dropWhile (fun b => b = 32)).reverse

/-- `char_linebreak` (source lines 975-1008): a newline preceded by
two spaces.  The source asserts that the last sibling exists and is a
NORMAL_TEXT; it then trims all trailing spaces from that sibling's
text (the assert is modelled by leaving `acc` unchanged in the
unreachable non-NORMAL_TEXT case) and swallows the leading spaces of
the next line. -/
def char_linebreak_f (buf : List Nat) (pos offset size : Nat)
    (acc : List FNode) : Nat × List FNode :=
  if offset < 2 ∨ bget buf (pos - 1) ≠ 32 ∨ bget buf (pos - 2) ≠ 32 then (0, acc)
  else
    let acc2 :=
      match acc.getLast? with
      | some (FNode.mk .normal_text (.text s) cs) =>
        acc.dropLast ++ [FNode.mk .normal_text (.text (rstrip_spaces s)) cs]
      | _ => acc
    let w := run_len buf pos size 32 1
    (w, acc2 ++ [FNode.mk .linebreak .none []])

/-- `while (i < size && data[i] != end[0]) i++` of `parse_math`;
`r = size - i`. -/
def scan_to_byte (buf : List Nat) (pos target : Nat) : Nat → Nat → Nat
  | 0, i => i
  | r + 1, i =>
    if bget buf (pos + i) = target then i
    else scan_to_byte buf pos target r (i + 1)

/-- The delimiter-finding loop of `parse_math`: the index just past
the closing delimiter, or `none`.  One fuel unit per outer iteration
(`size + 1` suffices: `i` advances each time). -/
def parse_math_go (buf : List Nat) (pos size : Nat) (endd : List Nat)
    (delimsz : Nat) : Nat → Nat → Option Nat
  | 0, _ => Option.none
  | k + 1, i =>
    let i1 := scan_to_byte buf pos (bget endd 0) (size - i) i
    if i1 ≥ size then Option.none
    else if ¬ is_escaped buf pos i1 ∧ ¬ (i1 + delimsz > size) ∧
        slice buf (pos + i1) delimsz = endd then some (i1 + delimsz)
    else parse_math_go buf pos size endd delimsz k (i1 + 1)

/-- `parse_math` (source lines 881-920): scan for the closing
delimiter; without `LOWDOWN_MATH` the whole span (delimiters
included) becomes NORMAL_TEXT, with it a MATH_BLOCK node holding the
inner bytes. -/
def parse_math (fl : Flags) (buf : List Nat) (pos offset size : Nat)
    (endd : List Nat) (delimsz : Nat) (blockmode : Bool)
    (acc : List FNode) : Nat × List FNode :=
  match parse_math_go buf pos size endd delimsz (size + 1) delimsz with
  | Option.none => (0, acc)
  | some iend =>
    if ¬ fl.math then (iend, acc ++ [ntext (slice buf pos iend)])
    else (iend, acc ++
      [FNode.mk .math_block (.math (slice buf (pos + delimsz) (iend - 2 * delimsz)) blockmode) []])

/-- The characters a backslash may escape:
`"\\`*_{}[]()#+-.!:|&<>^~=\"$"`. -/
def escape_chars : List Nat :=
  [92, 96, 42, 95, 123, 125, 91, 93, 40, 41, 35, 43, 45, 46, 33, 58,
   124, 38, 60, 62, 94, 126, 61, 34, 36]

/-- `char_escape` (source lines 1069-1118).  `\\(`/`\\[` spans go to
`parse_math` under `LOWDOWN_MATH`; `\` + newline is a hard break
under `LOWDOWN_COMMONMARK`; a known escapable byte becomes a
one-byte NORMAL_TEXT; a trailing lone backslash (`size == 1`)
becomes a NORMAL_TEXT holding the backslash itself; all successful
paths but math/commonmark report 2 bytes consumed. -/
def char_escape_f (fl : Flags) (buf : List Nat) (pos offset size : Nat)
    (acc : List FNode) : Nat × List FNode :=
  if size > 1 then
    let mres :=
      if bget buf (pos + 1) = 92 ∧ fl.math = true ∧ size > 2 ∧
          (bget buf (pos + 2) = 40 ∨ bget buf (pos + 2) = 91) then
        parse_math fl buf pos offset size
          (if bget buf (pos + 2) = 91 then [92, 92, 93] else [92, 92, 41]) 3
          (bget buf (pos + 2) = 91) acc
      else (0, acc)
    if mres.1 ≠ 0 then mres
    else if fl.commonmark = true ∧ bget buf (pos + 1) = 10 then
      (run_len buf pos size 32 2, acc ++ [FNode.mk .linebreak .none []])
    else if bget buf (pos + 1) = 0 ∨ escape_chars.contains (bget buf (pos + 1)) then
      -- `strchr(escape_chars, data[1])` also matches the string's
      -- NUL terminator, so a NUL after the backslash is escaped too.
      (2, acc ++ [ntext (slice buf (pos + 1) 1)])
    else (0, acc)
  else if size = 1 then
    (2, acc ++ [ntext (slice buf pos 1)])
  else (2, acc)

/-- `while (end < size && isalnum(data[end])) end++` of
`char_entity`; `r = size - e`. -/
def scan_alnum (buf : List Nat) (pos : Nat) : Nat → Nat → Nat
  | 0, e => e
  | r + 1, e =>
    if isalnumB (bget buf (pos + e)) then scan_alnum buf pos r (e + 1) else e

/-- `char_entity` (source lines 1123-1146): `&#?[A-Za-z0-9]+;`
becomes an ENTITY node holding the raw bytes, else no action. -/
def char_entity_f (buf : List Nat) (pos offset size : Nat)
    (acc : List FNode) : Nat × List FNode :=
  let e1 := if 1 < size ∧ bget buf (pos + 1) = 35 then 2 else 1
  let e2 := scan_alnum buf pos (size - e1) e1
  if e2 < size ∧ bget buf (pos + e2) = 59 then
    (e2 + 1, acc ++ [FNode.mk .entity (.text (slice buf pos (e2 + 1))) []])
  else (0, acc)

/-- The scan `while (end < size && active_char[data[end]] == 0)
end++` of `parse_inline`; `r = size - e`. -/
def scan_active (fl : Flags) (buf : List Nat) (pos : Nat) : Nat → Nat → Nat
  | 0, e => e
  | r + 1, e =>
    if active_char_simple fl (bget buf (pos + e)) ≠ MDChar.none then e
    else scan_active fl buf pos r (e + 1)

mutual

/-- `parse_inline(doc, data, size)` over `buf` at base `pos`: the
driver loop flushing pending bytes into NORMAL_TEXT nodes and
dispatching on active characters.  Fuel bounds the total number of
loop iterations and handler calls. -/
def parse_inline : Nat → Flags → List Nat → Nat → Nat → List FNode
  | 0, _, _, _, _ => []
  | fuel + 1, fl, buf, pos, size => parse_inline_go fuel fl buf pos size 0 0 0 []

/-- One iteration of the `parse_inline` loop: `i` is the start of
the pending span, `endv` the scan position, `consumed` the absolute
position after the last successful handler (so `i - consumed` is the
`offset` handler argument). -/
def parse_inline_go : Nat → Flags → List Nat → Nat → Nat → Nat → Nat → Nat →
    List FNode → List FNode
  | 0, _, _, _, _, _, _, _, acc => acc
  | fuel + 1, fl, buf, pos, size, i, endv, consumed, acc =>
    if i < size then
      let e2 := scan_active fl buf pos (size - endv) endv
      let acc1 := if e2 - i > 0 then acc ++ [ntext (slice buf (pos + i) (e2 - i))]
                  else acc
      if e2 ≥ size then acc1
      else
        let hres := inline_dispatch fuel fl buf pos e2 (e2 - consumed) (size - e2) acc1
        if hres.1 = 0 then
          parse_inline_go fuel fl buf pos size e2 (e2 + 1) consumed hres.2
        else
          parse_inline_go fuel fl buf pos size (e2 + hres.1) (e2 + hres.1)
            (e2 + hres.1) hres.2
    else acc

/-- `markdown_char_ptrs[active_char[data[end]]](doc, data + i,
i - consumed, size - i)`: dispatch to the handler for the active
byte at absolute span offset `at_` (`pos + at_` in the buffer). -/
def inline_dispatch : Nat → Flags → List Nat → Nat → Nat → Nat → Nat →
    List FNode → Nat × List FNode
  | 0, _, _, _, _, _, _, acc => (0, acc)
  | fuel + 1, fl, buf, pos, at_, offset, size, acc =>
    match active_char_simple fl (bget buf (pos + at_)) with
    | .emphasis => char_emphasis_f fuel fl buf (pos + at_) offset size acc
    | .codespan =>
      let r := char_codespan buf (pos + at_) size
      (r.1, acc ++ r.2)
    | .linebreak => char_linebreak_f buf (pos + at_) offset size acc
    -- `char_link`, `char_image` and `char_langle_tag` are outside
    -- this model (see `active_char_simple`): these three arms are
    -- unreachable in every theorem, whose hypotheses keep the bytes
    -- `[`, `!`, `<` out of the scanned span.
    | .link => (0, acc)
    | .image => (0, acc)
    | .langle => (0, acc)
    | .escape => char_escape_f fl buf (pos + at_) offset size acc
    | .entity => char_entity_f buf (pos + at_) offset size acc
    | .math =>
      if size > 1 ∧ bget buf (pos + at_ + 1) = 36 then
        parse_math fl buf (pos + at_) offset size [36, 36] 2 true acc
      else
        parse_math fl buf (pos + at_) offset size [36] 1 false acc
    | .none => (0, acc)

/-- `char_emphasis` (source lines 925-969): dispatch to
`parse_emph1/2/3` on the length of the delimiter run. -/
def char_emphasis_f : Nat → Flags → List Nat → Nat → Nat → Nat → List FNode →
    Nat × List FNode
  | 0, _, _, _, _, _, acc => (0, acc)
  | fuel + 1, fl, buf, pos, offset, size, acc =>
    let c := bget buf pos
    if fl.nointem = true ∧ offset > 0 ∧ ¬ xisspace (bget buf (pos - 1)) ∧
        bget buf (pos - 1) ≠ 62 ∧ bget buf (pos - 1) ≠ 40 then (0, acc)
    else if size > 2 ∧ bget buf (pos + 1) ≠ c then
      if c = 126 ∨ c = 61 ∨ xisspace (bget buf (pos + 1)) then (0, acc)
      else
        let r := parse_emph1_f fuel fl buf (pos + 1) (size - 1) c acc
        if r.1 = 0 then (0, acc) else (r.1 + 1, r.2)
    else if size > 3 ∧ bget buf (pos + 1) = c ∧ bget buf (pos + 2) ≠ c then
      if xisspace (bget buf (pos + 2)) then (0, acc)
      else
        let r := parse_emph2_f fuel fl buf (pos + 2) (size - 2) c acc
        if r.1 = 0 then (0, acc) else (r.1 + 2, r.2)
    else if size > 4 ∧ bget buf (pos + 1) = c ∧ bget buf (pos + 2) = c ∧
        bget buf (pos + 3) ≠ c then
      if c = 126 ∨ c = 61 ∨ xisspace (bget buf (pos + 3)) then (0, acc)
      else
        let r := parse_emph3_f fuel fl buf (pos + 3) (size - 3) c acc
        if r.1 = 0 then (0, acc) else (r.1 + 3, r.2)
    else (0, acc)

/-- `parse_emph1` (source lines 753-785): entry, skipping one symbol
when coming from `parse_emph3`. -/
def parse_emph1_f : Nat → Flags → List Nat → Nat → Nat → Nat → List FNode →
    Nat × List FNode
  | 0, _, _, _, _, _, acc => (0, acc)
  | fuel + 1, fl, buf, pos, size, c, acc =>
    parse_emph1_go fuel fl buf pos size c
      (if size > 1 ∧ bget buf pos = c ∧ bget buf (pos + 1) = c then 1 else 0) acc

/-- The loop of `parse_emph1`: a closer is a `c` not preceded by
spacing; on success the span `[0, i)` is reparsed as the EMPHASIS
node's children. -/
def parse_emph1_go : Nat → Flags → List Nat → Nat → Nat → Nat → Nat →
    List FNode → Nat × List FNode
  | 0, _, _, _, _, _, _, acc => (0, acc)
  | fuel + 1, fl, buf, pos, size, c, i, acc =>
    if i < size then
      let len := find_emph_char buf (pos + i) (size - i) c
      if len = 0 then (0, acc)
      else
        let i1 := i + len
        if i1 ≥ size then (0, acc)
        else if bget buf (pos + i1) = c ∧ ¬ xisspace (bget buf (pos + i1 - 1)) then
          if fl.nointem = true ∧ i1 + 1 < size ∧ isalnumB (bget buf (pos + i1 + 1)) then
            parse_emph1_go fuel fl buf pos size c i1 acc
          else
            (i1 + 1, acc ++ [FNode.mk .emphasis .none (parse_inline fuel fl buf pos i1)])
        else parse_emph1_go fuel fl buf pos size c i1 acc
    else (0, acc)

/-- `parse_emph2` (source lines 790-820): entry. -/
def parse_emph2_f : Nat → Flags → List Nat → Nat → Nat → Nat → List FNode →
    Nat × List FNode
  | 0, _, _, _, _, _, acc => (0, acc)
  | fuel + 1, fl, buf, pos, size, c, acc =>
    parse_emph2_go fuel fl buf pos size c 0 acc

/-- The loop of `parse_emph2`: a double closer yields
STRIKETHROUGH (`~`), HIGHLIGHT (`=`) or DOUBLE_EMPHASIS. -/
def parse_emph2_go : Nat → Flags → List Nat → Nat → Nat → Nat → Nat →
    List FNode → Nat × List FNode
  | 0, _, _, _, _, _, _, acc => (0, acc)
  | fuel + 1, fl, buf, pos, size, c, i, acc =>
    if i < size then
      let len := find_emph_char buf (pos + i) (size - i) c
      if len = 0 then (0, acc)
      else
        let i1 := i + len
        if i1 + 1 < size ∧ bget buf (pos + i1) = c ∧ bget buf (pos + i1 + 1) = c ∧
            i1 ≠ 0 ∧ ¬ xisspace (bget buf (pos + i1 - 1)) then
          (i1 + 2, acc ++
            [FNode.mk
              (if c = 126 then NT.strikethrough
               else if c = 61 then NT.highlight
               else NT.double_emphasis) .none (parse_inline fuel fl buf pos i1)])
        else parse_emph2_go fuel fl buf pos size c (i1 + 1) acc
    else (0, acc)

/-- `parse_emph3` (source lines 826-876): entry. -/
def parse_emph3_f : Nat → Flags → List Nat → Nat → Nat → Nat → List FNode →
    Nat × List FNode
  | 0, _, _, _, _, _, acc => (0, acc)
  | fuel + 1, fl, buf, pos, size, c, acc =>
    parse_emph3_go fuel fl buf pos size c 0 acc

/-- The loop of `parse_emph3`: a triple closer yields
TRIPLE_EMPHASIS, otherwise delegate to `parse_emph1`/`parse_emph2`
with the pointer backed up over the extra delimiters. -/
def parse_emph3_go : Nat → Flags → List Nat → Nat → Nat → Nat → Nat →
    List FNode → Nat × List FNode
  | 0, _, _, _, _, _, _, acc => (0, acc)
  | fuel + 1, fl, buf, pos, size, c, i, acc =>
    if i < size then
      let len := find_emph_char buf (pos + i) (size - i) c
      if len = 0 then (0, acc)
      else
        let i1 := i + len
        if bget buf (pos + i1) ≠ c ∨ xisspace (bget buf (pos + i1 - 1)) then
          parse_emph3_go fuel fl buf pos size c i1 acc
        else if i1 + 2 < size ∧ bget buf (pos + i1 + 1) = c ∧
            bget buf (pos + i1 + 2) = c then
          (i1 + 3, acc ++
            [FNode.mk .triple_emphasis .none (parse_inline fuel fl buf pos i1)])
        else if i1 + 1 < size ∧ bget buf (pos + i1 + 1) = c then
          let r := parse_emph1_f fuel fl buf (pos - 2) (size + 2) c acc
          if r.1 = 0 then (0, acc) else (r.1 - 2, r.2)
        else
          let r := parse_emph2_f fuel fl buf (pos - 1) (size + 1) c acc
          if r.1 = 0 then (0, acc) else (r.1 - 1, r.2)
    else (0, acc)

end

/-! ### Lemmas about the inline scanners -/

theorem scan_active_all (fl : Flags) (buf : List Nat) (pos : Nat) :
    ∀ r e, (∀ j, j < r → active_char_simple fl (bget buf (pos + (e + j))) = MDChar.none) →
      scan_active fl buf pos r e = e + r := by
  intro r
  induction r with
  | zero => intro e _; rfl
  | succ r ih =>
    intro e h
    have h0 := h 0 (by omega)
    simp only [Nat.add_zero] at h0
    simp only [scan_active, h0, ne_eq, not_true_eq_false, if_false]
    rw [ih (e + 1) fun j hj => by
      have := h (j + 1) (by omega)
      rw [show e + 1 + j = e + (j + 1) by omega]
      exact this]
    omega

theorem scan_active_finds (fl : Flags) (buf : List Nat) (pos : Nat) :
    ∀ r k e, k < r →
      (∀ j, j < k → active_char_simple fl (bget buf (pos + (e + j))) = MDChar.none) →
      active_char_simple fl (bget buf (pos + (e + k))) ≠ MDChar.none →
      scan_active fl buf pos r e = e + k := by
  intro r
  induction r with
  | zero => intro k e hk; omega
  | succ r ih =>
    intro k e hk hbelow hat
    match k with
    | 0 =>
      simp only [Nat.add_zero] at hat
      simp only [scan_active]
      rw [if_pos hat]
      omega
    | k + 1 =>
      have h0 := hbelow 0 (by omega)
      simp only [Nat.add_zero] at h0
      simp only [scan_active, h0, ne_eq, not_true_eq_false, if_false]
      rw [ih k (e + 1) (by omega)
        (fun j hj => by
          have := hbelow (j + 1) (by omega)
          rw [show e + 1 + j = e + (j + 1) by omega]
          exact this)
        (by rw [show e + 1 + k = e + (k + 1) by omega]; exact hat)]
      omega

theorem fec_scan1_all (buf : List Nat) (pos c : Nat) :
    ∀ r i, (∀ j, j < r → bget buf (pos + (i + j)) ≠ c ∧
        bget buf (pos + (i + j)) ≠ 91 ∧ bget buf (pos + (i + j)) ≠ 96) →
      fec_scan1 buf pos c r i = i + r := by
  intro r
  induction r with
  | zero => intro i _; rfl
  | succ r ih =>
    intro i h
    have h0 := h 0 (by omega)
    simp only [Nat.add_zero] at h0
    simp only [fec_scan1, h0.1, h0.2.1, h0.2.2, or_self, if_false, or_false]
    rw [ih (i + 1) fun j hj => by
      have := h (j + 1) (by omega)
      rw [show i + 1 + j = i + (j + 1) by omega]
      exact this]
    omega

theorem fec_main_none (buf : List Nat) (pos size c : Nat)
    (h : ∀ j, j < size → bget buf (pos + j) ≠ c ∧
      bget buf (pos + j) ≠ 91 ∧ bget buf (pos + j) ≠ 96) :
    ∀ k, fec_main buf pos size c (k + 1) 0 = 0 := by
  intro k
  by_cases hs : 0 < size
  · have hscan : fec_scan1 buf pos c (size - 0) 0 = size := by
      rw [fec_scan1_all buf pos c (size - 0) 0
        (fun j hj => by
          have := h j (by omega)
          simpa using this)]
      omega
    simp only [fec_main, hs, if_true, hscan, if_pos rfl]
  · simp only [fec_main, hs, if_false]

theorem find_emph_char_none (buf : List Nat) (pos size c : Nat)
    (h : ∀ j, j < size → bget buf (pos + j) ≠ c ∧
      bget buf (pos + j) ≠ 91 ∧ bget buf (pos + j) ≠ 96) :
    find_emph_char buf pos size c = 0 := by
  have : 2 * size + 4 = (2 * size + 3) + 1 := rfl
  rw [find_emph_char, this]
  exact fec_main_none buf pos size c h (2 * size + 3)

theorem bget_mem {s : List Nat} : ∀ {j : Nat}, j < s.length → bget s j ∈ s := by
  induction s with
  | nil => intro j h; simp at h
  | cons x xs ih =>
    intro j h
    cases j with
    | zero => exact List.mem_cons_self x xs
    | succ j =>
      rw [bget_cons_succ]
      exact List.mem_cons_of_mem x (ih (by simpa using h))

theorem slice_prefix_append (s t : List Nat) :
    slice (s ++ t) 0 s.length = s := by
  simp [slice, List.take_left]

theorem slice_suffix_append (s t : List Nat) :
    slice (s ++ t) s.length t.length = t := by
  simp [slice, List.drop_left]

theorem parse_inline_go_done (fuel : Nat) (fl : Flags) (buf : List Nat)
    (pos size i endv consumed : Nat) (acc : List FNode) (h : size ≤ i) :
    parse_inline_go fuel fl buf pos size i endv consumed acc = acc := by
  cases fuel with
  | zero => simp only [parse_inline_go]
  | succ fuel => simp only [parse_inline_go, show ¬ i < size by omega, if_false]

theorem parse_inline_go_step (fuel : Nat) (fl : Flags) (buf : List Nat)
    (pos size i endv consumed : Nat) (acc : List FNode) (k : Nat)
    (hk : endv ≤ k) (hks : k < size)
    (hin : ∀ j, endv ≤ j → j < k →
      active_char_simple fl (bget buf (pos + j)) = MDChar.none)
    (hat : active_char_simple fl (bget buf (pos + k)) ≠ MDChar.none)
    (hi : i < size) :
    parse_inline_go (fuel + 1) fl buf pos size i endv consumed acc =
      (let acc1 := if k - i > 0 then acc ++ [ntext (slice buf (pos + i) (k - i))]
                   else acc
       let hres := inline_dispatch fuel fl buf pos k (k - consumed) (size - k) acc1
       if hres.1 = 0 then
         parse_inline_go fuel fl buf pos size k (k + 1) consumed hres.2
       else
         parse_inline_go fuel fl buf pos size (k + hres.1) (k + hres.1)
           (k + hres.1) hres.2) := by
  have hscan : scan_active fl buf pos (size - endv) endv = k := by
    rw [scan_active_finds fl buf pos (size - endv) (k - endv) endv (by omega)
      (fun j hj => hin (endv + j) (by omega) (by omega))
      (by rw [show endv + (k - endv) = k by omega]; exact hat)]
    omega
  rw [parse_inline_go, if_pos hi]
  simp only [hscan]
  rw [if_neg (show ¬ k ≥ size by omega)]

/-- C10.  A lone backslash as the final byte of an inline span:
`char_escape` emits a NORMAL_TEXT node holding the backslash itself
and reports 2 bytes consumed, and the inline loop on a span of plain
text followed by a trailing backslash yields the text node and the
literal backslash node, terminating without reading past the span. -/
theorem C10_trailing_backslash (fl : Flags) (s : List Nat) (hs : s ≠ [])
    (hinact : ∀ b ∈ s, active_char_simple fl b = MDChar.none) :
    (∀ buf pos offset acc, char_escape_f fl buf pos offset 1 acc =
      (2, acc ++ [ntext (slice buf pos 1)])) ∧
    ∀ fuel, parse_inline (fuel + 3) fl (s ++ [92]) 0 (s.length + 1) =
      [ntext s, ntext [92]] := by
  constructor
  · intro buf pos offset acc
    simp [char_escape_f]
  · intro fuel
    have hlen : 0 < s.length := List.length_pos.mpr hs
    have hbuf : ∀ j, j < s.length →
        active_char_simple fl (bget (s ++ [92]) (0 + j)) = MDChar.none := by
      intro j hj
      rw [Nat.zero_add, bget_append_left _ hj]
      exact hinact _ (bget_mem hj)
    have hat92 : bget (s ++ [92]) s.length = 92 := by
      rw [show s.length = s.length + 0 from rfl, bget_append_right]
      rfl
    have hesc : active_char_simple fl 92 = MDChar.escape := rfl
    have hsl : slice (s ++ [92]) s.length 1 = [92] := by
      have := slice_suffix_append s [92]
      simpa using this
    have hpre : slice (s ++ [92]) 0 s.length = s := by
      have := slice_prefix_append s [92]
      simpa using this
    rw [show fuel + 3 = (fuel + 1 + 1) + 1 from rfl, parse_inline,
      parse_inline_go_step (fuel + 1) fl (s ++ [92]) 0 (s.length + 1) 0 0 0 []
        s.length (by omega) (by omega) (fun j _ hj => hbuf j hj)
        (by rw [Nat.zero_add, hat92, hesc]; simp) (by omega)]
    simp [inline_dispatch, hat92, hesc, char_escape_f, hsl, hpre, hlen,
      Nat.add_sub_cancel_left]
    exact parse_inline_go_done _ _ _ _ _ _ _ _ _ (by omega)

theorem C10_trailing_backslash_witness :
    ((∀ buf pos offset acc, char_escape_f flags0 buf pos offset 1 acc =
      (2, acc ++ [ntext (slice buf pos 1)])) ∧
    ∀ fuel, parse_inline (fuel + 3) flags0 ([97] ++ [92]) 0 ([97].length + 1) =
      [ntext [97], ntext [92]]) := by
  exact C10_trailing_backslash flags0 [97] (by simp) (by decide)

theorem slice_all (t : List Nat) : slice t 0 t.length = t := by
  simp [slice]

theorem parse_inline_go_flush_tail (fuel : Nat) (fl : Flags) (buf : List Nat)
    (pos size i endv consumed : Nat) (acc : List FNode)
    (hi : i < size) (hes : endv ≤ size)
    (hin : ∀ j, endv ≤ j → j < size →
      active_char_simple fl (bget buf (pos + j)) = MDChar.none) :
    parse_inline_go (fuel + 1) fl buf pos size i endv consumed acc =
      acc ++ [ntext (slice buf (pos + i) (size - i))] := by
  have hscan : scan_active fl buf pos (size - endv) endv = size := by
    rw [scan_active_all fl buf pos (size - endv) endv
      (fun j hj => hin (endv + j) (by omega) (by omega))]
    omega
  rw [parse_inline_go, if_pos hi]
  simp only [hscan]
  rw [if_pos (show size - i > 0 by omega), if_pos (show size ≥ size from le_refl _)]

theorem inactive0_facts {b : Nat}
    (h : active_char_simple flags0 b = MDChar.none) :
    b ≠ 42 ∧ b ≠ 95 ∧ b ≠ 96 ∧ b ≠ 10 ∧ b ≠ 92 ∧ b ≠ 38 := by
  refine ⟨?_, ?_, ?_, ?_, ?_, ?_⟩ <;> rintro rfl <;>
    simp [active_char_simple, flags0] at h

/-- C7.  An emphasis delimiter (`*` or `_`) with no closing delimiter
in the remaining span: `find_emph_char` reports no occurrence,
`char_emphasis` returns 0 having emitted nothing, and the inline loop
swallows the delimiter byte into the literal NORMAL_TEXT node that
covers the rest of the span; no EMPHASIS-family node is created. -/
theorem C7_emphasis_no_closer (c : Nat) (s : List Nat)
    (hc : c = 42 ∨ c = 95)
    (hinact : ∀ b ∈ s, active_char_simple flags0 b = MDChar.none)
    (hnb : ∀ b ∈ s, b ≠ 91) :
    find_emph_char (c :: s) 1 s.length c = 0 ∧
    (∀ fuel acc, char_emphasis_f fuel flags0 (c :: s) 0 0 (s.length + 1) acc =
      (0, acc)) ∧
    (∀ fuel, parse_inline (fuel + 3) flags0 (c :: s) 0 (s.length + 1) =
      [ntext (c :: s)]) := by
  have hside : ∀ j, j < s.length → bget (c :: s) (1 + j) ≠ c ∧
      bget (c :: s) (1 + j) ≠ 91 ∧ bget (c :: s) (1 + j) ≠ 96 := by
    intro j hj
    rw [show 1 + j = j + 1 by omega, bget_cons_succ]
    have hm := bget_mem hj
    have hf := inactive0_facts (hinact _ hm)
    have h91 := hnb _ hm
    rcases hc with rfl | rfl
    · exact ⟨hf.1, h91, hf.2.2.1⟩
    · exact ⟨hf.2.1, h91, hf.2.2.1⟩
  have ha : find_emph_char (c :: s) 1 s.length c = 0 :=
    find_emph_char_none (c :: s) 1 s.length c hside
  have hb : ∀ fuel acc,
      char_emphasis_f fuel flags0 (c :: s) 0 0 (s.length + 1) acc = (0, acc) := by
    intro fuel acc
    cases fuel with
    | zero => simp only [char_emphasis_f]
    | succ fuel =>
      have hc0 : bget (c :: s) 0 = c := rfl
      have hnointem : flags0.nointem = false := rfl
      by_cases hlen : s.length + 1 > 2
      · have hs0 : bget (c :: s) (0 + 1) ≠ c := by
          rw [Nat.zero_add, show (1 : Nat) = 0 + 1 from rfl, bget_cons_succ]
          have hm : bget s 0 ∈ s := bget_mem (by omega)
          have hf := inactive0_facts (hinact _ hm)
          rcases hc with rfl | rfl
          · exact hf.1
          · exact hf.2.1
        simp only [char_emphasis_f, hc0, hnointem, Bool.false_eq_true,
          false_and, if_false, hlen, hs0, not_false_eq_true, and_true,
          true_and, if_true, ne_eq]
        by_cases hws : c = 126 ∨ c = 61 ∨ xisspace (bget (c :: s) (0 + 1)) = true
        · rw [if_pos hws]
        · rw [if_neg hws]
          have hp1 : parse_emph1_f fuel flags0 (c :: s) (0 + 1) (s.length + 1 - 1)
              c acc = (0, acc) := by
            cases fuel with
            | zero => simp only [parse_emph1_f]
            | succ fuel =>
              have hi0 : bget (c :: s) (0 + 1) = bget s 0 := by
                rw [Nat.zero_add, show (1 : Nat) = 0 + 1 from rfl, bget_cons_succ]
              simp only [parse_emph1_f]
              rw [if_neg (by rintro ⟨-, h2, -⟩; exact hs0 h2)]
              cases fuel with
              | zero => simp only [parse_emph1_go]
              | succ fuel =>
                simp only [parse_emph1_go]
                rw [if_pos (by omega : (0 : Nat) < s.length + 1 - 1)]
                have : find_emph_char (c :: s) (0 + 1 + 0)
                    (s.length + 1 - 1 - 0) c = 0 := by
                  simpa using ha
                simp only [this, if_true]
          rw [hp1]
          simp
      · -- size ≤ 2: every branch's size guard fails
        have h2 : ¬ (s.length + 1 > 2 ∧ bget (c :: s) (0 + 1) ≠ c) := by
          rintro ⟨h, -⟩; exact hlen h
        have h3 : ¬ (s.length + 1 > 3 ∧ bget (c :: s) (0 + 1) = c ∧
            bget (c :: s) (0 + 2) ≠ c) := by
          rintro ⟨h, -⟩; omega
        have h4 : ¬ (s.length + 1 > 4 ∧ bget (c :: s) (0 + 1) = c ∧
            bget (c :: s) (0 + 2) = c ∧ bget (c :: s) (0 + 3) ≠ c) := by
          rintro ⟨h, -⟩; omega
        simp only [char_emphasis_f, hc0, hnointem, Bool.false_eq_true,
          false_and, if_false, ne_eq]
        rw [if_neg h2, if_neg h3, if_neg h4]
  refine ⟨ha, hb, ?_⟩
  intro fuel
  have hat : active_char_simple flags0 (bget (c :: s) (0 + 0)) ≠ MDChar.none := by
    rw [Nat.add_zero, show bget (c :: s) 0 = c from rfl]
    rcases hc with rfl | rfl <;> simp [active_char_simple]
  rw [show fuel + 3 = (fuel + 1 + 1) + 1 from rfl, parse_inline,
    parse_inline_go_step (fuel + 1) flags0 (c :: s) 0 (s.length + 1) 0 0 0 []
      0 (le_refl 0) (by omega) (fun j hj hj0 => by omega) hat (by omega)]
  have hdisp : inline_dispatch (fuel + 1) flags0 (c :: s) 0 0 (0 - 0)
      (s.length + 1 - 0)
      (if 0 - 0 > 0 then [] ++ [ntext (slice (c :: s) (0 + 0) (0 - 0))] else []) =
      (0, []) := by
    rw [if_neg (by omega)]
    rw [inline_dispatch]
    rw [show bget (c :: s) (0 + 0) = c from rfl]
    have hact : active_char_simple flags0 c = MDChar.emphasis := by
      rcases hc with rfl | rfl <;> rfl
    rw [hact]
    show char_emphasis_f fuel flags0 (c :: s) (0 + 0) (0 - 0) (s.length + 1 - 0)
      [] = (0, [])
    simpa using hb fuel []
  simp only [hdisp]
  simp only [if_true]
  rw [parse_inline_go_flush_tail fuel flags0 (c :: s) 0 (s.length + 1) 0 1 0 []
    (by omega) (by omega)
    (fun j hj1 hjs => by
      rw [show 0 + j = (j - 1) + 1 by omega, bget_cons_succ]
      exact hinact _ (bget_mem (by omega)))]
  rw [show 0 + 0 = 0 from rfl, Nat.sub_zero,
    show s.length + 1 = (c :: s).length from rfl, slice_all]
  simp

theorem C7_emphasis_no_closer_witness :
    find_emph_char (42 :: [97, 98]) 1 [97, 98].length 42 = 0 ∧
    (∀ fuel acc, char_emphasis_f fuel flags0 (42 :: [97, 98]) 0 0
      ([97, 98].length + 1) acc = (0, acc)) ∧
    (∀ fuel, parse_inline (fuel + 3) flags0 (42 :: [97, 98]) 0
      ([97, 98].length + 1) = [ntext (42 :: [97, 98])]) :=
  C7_emphasis_no_closer 42 [97, 98] (Or.inl rfl) (by decide) (by decide)

/-- The claim's forbidden shape: a zero-length NORMAL_TEXT among the
emitted siblings. -/
def has_empty_normal_text (ns : List FNode) : Prop :=
  ∃ n ∈ ns, n.t = NT.normal_text ∧ n.pay = Payload.text []

/-- C8: counterexample.  On `"*a*  \nb"` the hard-linebreak handler
trims the pending `"  "` NORMAL_TEXT sibling to length zero and
leaves it in the tree: the output contains an empty NORMAL_TEXT
node, refuting "no NORMAL_TEXT node in the returned tree has an
empty text buffer". -/
theorem C8_empty_text_counterexample :
    parse_inline 12 flags0 [42, 97, 42, 32, 32, 10, 98] 0 7 =
      [FNode.mk .emphasis .none [ntext [97]], ntext [],
       FNode.mk .linebreak .none [], ntext [98]] ∧
    has_empty_normal_text (parse_inline 12 flags0 [42, 97, 42, 32, 32, 10, 98] 0 7) := by
  have h : parse_inline 12 flags0 [42, 97, 42, 32, 32, 10, 98] 0 7 =
      [FNode.mk .emphasis .none [ntext [97]], ntext [],
       FNode.mk .linebreak .none [], ntext [98]] := by
    simp [parse_inline, parse_inline_go, inline_dispatch, scan_active,
      active_char_simple, char_emphasis_f, parse_emph1_f, parse_emph1_go,
      find_emph_char, fec_main, fec_scan1, fec_cs, fec_scanto, is_escaped,
      is_escaped_go, run_len, run_len_go, skip_xisspace, char_linebreak_f,
      rstrip_spaces, Lowdown.slice, bget, xisspace, isalnumB, ntext, flags0,
      char_escape_f]
  refine ⟨h, ?_⟩
  rw [h]
  exact ⟨ntext [], by simp, rfl, rfl⟩

theorem rstrip_spaces_all (s : List Nat) (h : ∀ b ∈ s, b = 32) :
    rstrip_spaces s = [] := by
  simp only [rstrip_spaces, List.reverse_eq_nil_iff]
  rw [List.dropWhile_eq_nil_iff]
  intro x hx
  simp [h x (List.mem_reverse.mp hx)]

theorem slice_length (buf : List Nat) (pos size : Nat)
    (h : pos + size ≤ buf.length) : (slice buf pos size).length = size := by
  simp only [slice, List.length_take, List.length_drop]
  omega

/-- C8 (amended).  The inline loop itself allocates a NORMAL_TEXT
node only for a non-empty pending span (a handler-free span of
positive length yields exactly one non-empty text node, an empty one
yields nothing) — but the `char_linebreak` trimming of the
preceding sibling can leave a zero-length NORMAL_TEXT node in the
tree when that sibling was all spaces. -/
theorem C8_flush_amended (fl : Flags) (buf : List Nat) (pos size fuel : Nat)
    (hin : ∀ j, j < size →
      active_char_simple fl (bget buf (pos + j)) = MDChar.none)
    (hlen : pos + size ≤ buf.length) :
    (parse_inline (fuel + 2) fl buf pos size =
      if 0 < size then [ntext (slice buf pos size)] else []) ∧
    (0 < size → (slice buf pos size).length = size) ∧
    (∀ s cs acc pos2 offset2 size2, offset2 ≥ 2 → bget buf (pos2 - 1) = 32 →
      bget buf (pos2 - 2) = 32 → (∀ b ∈ s, b = 32) →
      char_linebreak_f buf pos2 offset2 size2
        (acc ++ [FNode.mk .normal_text (.text s) cs]) =
        (run_len buf pos2 size2 32 1,
         acc ++ [FNode.mk .normal_text (.text []) cs,
                 FNode.mk .linebreak .none []])) := by
  refine ⟨?_, fun h => slice_length buf pos size hlen, ?_⟩
  · by_cases hsz : 0 < size
    · rw [if_pos hsz, show fuel + 2 = (fuel + 1) + 1 from rfl, parse_inline,
        parse_inline_go_flush_tail fuel fl buf pos size 0 0 0 []
          hsz (by omega) (fun j _ hj => hin j hj)]
      simp
    · rw [if_neg hsz, show fuel + 2 = (fuel + 1) + 1 from rfl, parse_inline]
      exact parse_inline_go_done (fuel + 1) fl buf pos size 0 0 0 [] (by omega)
  · intro s cs acc pos2 offset2 size2 hoff h1 h2 hsp
    rw [char_linebreak_f,
      if_neg (by simp [h1, h2]; omega)]
    simp only [List.getLast?_concat, List.dropLast_concat,
      rstrip_spaces_all s hsp]
    simp

theorem C8_flush_amended_witness :
    ((parse_inline (0 + 2) flags0 [32, 32, 10, 97] 0 2 =
      if 0 < 2 then [ntext (slice [32, 32, 10, 97] 0 2)] else []) ∧
    (0 < 2 → (slice [32, 32, 10, 97] 0 2).length = 2) ∧
    (∀ s cs acc pos2 offset2 size2, offset2 ≥ 2 →
      bget [32, 32, 10, 97] (pos2 - 1) = 32 →
      bget [32, 32, 10, 97] (pos2 - 2) = 32 → (∀ b ∈ s, b = 32) →
      char_linebreak_f [32, 32, 10, 97] pos2 offset2 size2
        (acc ++ [FNode.mk .normal_text (.text s) cs]) =
        (run_len [32, 32, 10, 97] pos2 size2 32 1,
         acc ++ [FNode.mk .normal_text (.text []) cs,
                 FNode.mk .linebreak .none []]))) ∧
    bget [32, 32, 10, 97] (2 - 1) = 32 ∧ (∀ b ∈ [32, 32], b = 32) :=
  ⟨C8_flush_amended flags0 [32, 32, 10, 97] 0 2 0 (by decide) (by decide),
   by decide, by decide⟩

/-! ### C3: footnote references -/

/-- `struct footnote_ref`: a parsed footnote definition (`name` is
the id between `[^` and `]:`, `contents` the definition text). -/
structure FootnoteRef where
  name : List Nat
  contents : List Nat
  is_used : Bool
  num : Nat
deriving DecidableEq, Repr

/-- The footnote fields of `struct lowdown_doc`: `doc->footnotes`
and `doc->footnotesz`. -/
structure FnState where
  footnotes : List FootnoteRef
  footnotesz : Nat
deriving DecidableEq, Repr

/-- `find_footnote_ref` (source lines 262-275): first entry of the
queue whose name matches. -/
def find_footnote_ref (q : List FootnoteRef) (nm : List Nat) :
    Option FootnoteRef :=
  q.find? (fun r => r.name == nm)

/-- `fr->num = ++doc->footnotesz; fr->is_used = 1;` applied to the
queue entry `find_footnote_ref` returned (the first name match). -/
def mark_first : List FootnoteRef → List Nat → Nat → List FootnoteRef
  | [], _, _ => []
  | r :: rs, nm, n =>
    if r.name == nm then { r with is_used := true, num := n } :: rs
    else r :: mark_first rs nm n

/-- The `is_footnote` branch of `char_link` (source lines 1357-1417):
find the closing `]`, look the id up; an unused entry gets the next
ordinal and a FOOTNOTE_REF node, a used or missing one yields the
literal bytes as NORMAL_TEXT; all three consume through the `]`. -/
def char_link_footnote (buf : List Nat) (pos size : Nat) (st : FnState)
    (acc : List FNode) : Nat × FnState × List FNode :=
  let txt_e := 1 + find_emph_char buf (pos + 1) (size - 1) 93
  if txt_e < size ∧ bget buf (pos + txt_e) = 93 then
    if txt_e < 3 then (0, st, acc)
    else
      let idb := slice buf (pos + 2) (txt_e - 2)
      match find_footnote_ref st.footnotes idb with
      | some fr =>
        if fr.is_used = false then
          (txt_e + 1,
           ⟨mark_first st.footnotes idb (st.footnotesz + 1), st.footnotesz + 1⟩,
           acc ++ [FNode.mk .footnote_ref (.fnref (st.footnotesz + 1)) []])
        else
          (txt_e + 1, st, acc ++ [ntext (slice buf pos (txt_e + 1))])
      | Option.none => (txt_e + 1, st, acc ++ [ntext (slice buf pos (txt_e + 1))])
  else (0, st, acc)

/-- `parse_footnote_list` (source lines 2719-2750), parameterised by
the block parser `pb` applied to each definition's contents: for
`i = 0 .. footnotesz`, every used entry with `num == i` becomes a
FOOTNOTE_DEF child of a FOOTNOTES_BLOCK node (emitted only when some
definition is). -/
def parse_footnote_list (pb : List Nat → List FNode) (st : FnState) :
    List FNode :=
  if st.footnotes = [] then []
  else
    let used := (List.range (st.footnotesz + 1)).flatMap
      (fun i => st.footnotes.filter (fun r => r.num == i && r.is_used))
    if used.isEmpty then []
    else [FNode.mk .footnotes_block .none
      (used.map (fun r => FNode.mk .footnote_def (.fndef r.num) (pb r.contents)))]

theorem fec_scan1_finds (buf : List Nat) (pos c : Nat) :
    ∀ r k i, k < r →
      (∀ j, j < k → bget buf (pos + (i + j)) ≠ c ∧
        bget buf (pos + (i + j)) ≠ 91 ∧ bget buf (pos + (i + j)) ≠ 96) →
      (bget buf (pos + (i + k)) = c ∨ bget buf (pos + (i + k)) = 91 ∨
        bget buf (pos + (i + k)) = 96) →
      fec_scan1 buf pos c r i = i + k := by
  intro r
  induction r with
  | zero => intro k i hk; omega
  | succ r ih =>
    intro k i hk hbelow hat
    match k with
    | 0 =>
      simp only [Nat.add_zero] at hat
      simp only [fec_scan1]
      rw [if_pos hat]
      omega
    | k + 1 =>
      have h0 := hbelow 0 (by omega)
      simp only [Nat.add_zero] at h0
      simp only [fec_scan1, h0.1, h0.2.1, h0.2.2, or_self, if_false, or_false,
        false_or]
      rw [ih k (i + 1) (by omega)
        (fun j hj => by
          have := hbelow (j + 1) (by omega)
          rw [show i + 1 + j = i + (j + 1) by omega]
          exact this)
        (by rw [show i + 1 + k = i + (k + 1) by omega]; exact hat)]
      omega

theorem is_escaped_of_prev (buf : List Nat) (pos k : Nat)
    (h : k = 0 ∨ bget buf (pos + (k - 1)) ≠ 92) :
    is_escaped buf pos k = false := by
  cases k with
  | zero => simp [is_escaped, is_escaped_go]
  | succ k =>
    rcases h with h | h
    · omega
    · simp only [Nat.add_sub_cancel] at h
      simp [is_escaped, is_escaped_go, h]

theorem find_emph_char_at (buf : List Nat) (pos size c k : Nat)
    (hk : k < size)
    (hbelow : ∀ j, j < k → bget buf (pos + j) ≠ c ∧
      bget buf (pos + j) ≠ 91 ∧ bget buf (pos + j) ≠ 96)
    (hat : bget buf (pos + k) = c)
    (hesc : is_escaped buf pos k = false) :
    find_emph_char buf pos size c = k := by
  have hscan : fec_scan1 buf pos c (size - 0) 0 = k := by
    rw [fec_scan1_finds buf pos c (size - 0) k 0 (by omega)
      (fun j hj => by simpa using hbelow j hj)
      (by rw [Nat.zero_add]; exact Or.inl hat)]
    omega
  have : 2 * size + 4 = (2 * size + 3) + 1 := rfl
  rw [find_emph_char, this]
  rw [fec_main, if_pos (show 0 < size by omega)]
  simp only [hscan]
  rw [if_neg (show ¬ k = size by omega), if_neg (by rw [hesc]; simp),
    if_pos hat]

theorem char_link_footnote_mkref (id : List Nat) (st : FnState) (acc : List FNode)
    (hid : id ≠ [])
    (hfree : ∀ b ∈ id, b ≠ 93 ∧ b ≠ 91 ∧ b ≠ 96 ∧ b ≠ 92) :
    char_link_footnote (91 :: 94 :: (id ++ [93])) 0 (id.length + 3) st acc =
      (match find_footnote_ref st.footnotes id with
       | some fr =>
         if fr.is_used = false then
           (id.length + 3,
            ⟨mark_first st.footnotes id (st.footnotesz + 1), st.footnotesz + 1⟩,
            acc ++ [FNode.mk .footnote_ref (.fnref (st.footnotesz + 1)) []])
         else (id.length + 3, st,
           acc ++ [ntext (91 :: 94 :: (id ++ [93]))])
       | Option.none => (id.length + 3, st,
           acc ++ [ntext (91 :: 94 :: (id ++ [93]))])) := by
  have hlen : 0 < id.length := List.length_pos.mpr hid
  have hb : ∀ j, j < id.length →
      bget (91 :: 94 :: (id ++ [93])) (2 + j) = bget id j := by
    intro j hj
    rw [show 2 + j = (j + 1) + 1 by omega, bget_cons_succ, bget_cons_succ,
      bget_append_left _ hj]
  have hbend : bget (91 :: 94 :: (id ++ [93])) (2 + id.length) = 93 := by
    rw [show 2 + id.length = (id.length + 1) + 1 by omega, bget_cons_succ,
      bget_cons_succ, show id.length = id.length + 0 from rfl, bget_append_right]
    rfl
  have hfind : find_emph_char (91 :: 94 :: (id ++ [93])) 1 (id.length + 2) 93 =
      id.length + 1 := by
    apply find_emph_char_at _ _ _ _ _ (by omega)
    · intro j hj
      match j with
      | 0 =>
        have h94 : bget (91 :: 94 :: (id ++ [93])) (1 + 0) = 94 := rfl
        refine ⟨?_, ?_, ?_⟩ <;> rw [h94] <;> omega
      | j + 1 =>
        rw [show 1 + (j + 1) = 2 + j by omega, hb j (by omega)]
        have := hfree _ (bget_mem (show j < id.length by omega))
        exact ⟨this.1, this.2.1, this.2.2.1⟩
    · rw [show 1 + (id.length + 1) = 2 + id.length by omega]
      exact hbend
    · apply is_escaped_of_prev
      right
      rw [show id.length + 1 - 1 = id.length from rfl]
      match hll : id.length, hlen with
      | m + 1, _ =>
        rw [show 1 + (m + 1) = 2 + m by omega]
        rw [hb m (by omega)]
        exact (hfree _ (bget_mem (show m < id.length by omega))).2.2.2
  have hslice : slice (91 :: 94 :: (id ++ [93])) (0 + 2)
      (1 + (id.length + 1) - 2) = id := by
    rw [show 0 + 2 = 2 from rfl, show 1 + (id.length + 1) - 2 = id.length by omega]
    show (id ++ [93]).take id.length = id
    exact List.take_left id [93]
  have hlenall : 1 + (id.length + 1) + 1 = (91 :: 94 :: (id ++ [93])).length := by
    simp
    omega
  have hsliceall : slice (91 :: 94 :: (id ++ [93])) 0 (1 + (id.length + 1) + 1) =
      91 :: 94 :: (id ++ [93]) := by
    rw [hlenall, slice_all]
  have hfind2 : find_emph_char (91 :: 94 :: (id ++ [93])) (0 + 1)
      (id.length + 3 - 1) 93 = id.length + 1 := hfind
  simp only [char_link_footnote, hfind2]
  rw [if_pos ⟨by omega, by
    rw [show 0 + (1 + (id.length + 1)) = 2 + id.length by omega]; exact hbend⟩]
  rw [if_neg (by omega)]
  simp only [hslice]
  rcases hf : find_footnote_ref st.footnotes id with _ | fr
  · simp only [Nat.zero_add, hsliceall]
    rw [show 1 + (id.length + 1) + 1 = id.length + 3 by omega]
  · by_cases hu : fr.is_used = false
    · simp only [hu, if_true]
      rw [show 1 + (id.length + 1) + 1 = id.length + 3 by omega]
    · simp only [hu, if_false, Nat.zero_add, hsliceall]
      rw [show 1 + (id.length + 1) + 1 = id.length + 3 by omega]

/-- The ordinals of the used footnotes. -/
def used_nums (q : List FootnoteRef) : List Nat :=
  (q.filter (fun r => r.is_used)).map (fun r => r.num)

/-- The footnote-ordinal invariant: the used ordinals are exactly
`1 .. footnotesz`. -/
def fn_inv (st : FnState) : Prop :=
  (used_nums st.footnotes : Multiset Nat) = ↑(List.range' 1 st.footnotesz)

theorem used_nums_cons (r : FootnoteRef) (rs : List FootnoteRef) :
    used_nums (r :: rs) =
      if r.is_used then r.num :: used_nums rs else used_nums rs := by
  by_cases h : r.is_used <;> simp [used_nums, List.filter_cons, h]

theorem used_nums_mark_first :
    ∀ (q : List FootnoteRef) (nm : List Nat) (n : Nat) (fr : FootnoteRef),
      q.find? (fun r => r.name == nm) = some fr → fr.is_used = false →
      (used_nums (mark_first q nm n) : Multiset Nat) =
        ↑(used_nums q) + {n} := by
  intro q
  induction q with
  | nil => intro nm n fr h _; simp [List.find?] at h
  | cons r rs ih =>
    intro nm n fr hfind hu
    rw [List.find?_cons] at hfind
    by_cases hname : (r.name == nm) = true
    · rw [hname] at hfind
      simp only [Option.some_inj] at hfind
      subst hfind
      simp only [mark_first, hname, if_true]
      rw [used_nums_cons, used_nums_cons, hu]
      simp only [if_false, if_true]
      rw [← Multiset.cons_coe, ← Multiset.singleton_add]
      exact add_comm _ _
    · have hname' : (r.name == nm) = false := by
        simpa using hname
      rw [hname'] at hfind
      simp only [mark_first, hname', Bool.false_eq_true, if_false]
      rw [used_nums_cons, used_nums_cons]
      by_cases hru : r.is_used
      · simp only [hru, if_true]
        rw [← Multiset.cons_coe, ← Multiset.cons_coe, ih nm n fr hfind hu,
          ← Multiset.singleton_add, ← Multiset.singleton_add]
        abel
      · simp only [hru, if_false]
        exact ih nm n fr hfind hu

theorem count_range' (i sz : Nat) :
    (List.range' 1 sz).count i = if 1 ≤ i ∧ i < 1 + sz then 1 else 0 := by
  by_cases h : 1 ≤ i ∧ i < 1 + sz
  · rw [if_pos h]
    exact List.count_eq_one_of_mem (List.nodup_range' ..) (List.mem_range'_1.mpr h)
  · rw [if_neg h]
    exact List.count_eq_zero_of_not_mem (fun hm => h (List.mem_range'_1.mp hm))

theorem group_eq (i : Nat) : ∀ q : List FootnoteRef,
    (q.filter (fun r => r.num == i && r.is_used)).map (fun r => r.num) =
      List.replicate ((used_nums q).count i) i := by
  intro q
  induction q with
  | nil => simp [used_nums]
  | cons r rs ih =>
    rw [List.filter_cons, used_nums_cons]
    by_cases hu : r.is_used
    · by_cases hn : r.num = i
      · simp only [hn, hu, Bool.and_true, beq_self_eq_true, if_true,
          List.map_cons, ih, List.count_cons_self, List.replicate_succ]
      · have hb : (r.num == i && r.is_used) = false := by simp [hn]
        simp only [hb, Bool.false_eq_true, if_false]
        simp only [hu, if_true]
        rw [List.count_cons_of_ne (fun h => hn h.symm)]
        exact ih
    · have hu' : r.is_used = false := by simpa using hu
      simp only [hu', Bool.and_false, Bool.false_eq_true, if_false]
      exact ih

theorem flatMap_replicate_bounded (n : Nat) :
    ∀ m, m ≤ n + 1 →
      (List.range m).flatMap
        (fun i => List.replicate (if 1 ≤ i ∧ i < 1 + n then 1 else 0) i) =
      List.range' 1 (m - 1) := by
  intro m
  induction m with
  | zero => intro _; rfl
  | succ m ih =>
    intro hm
    rw [List.range_succ, List.flatMap_append, ih (by omega)]
    match m with
    | 0 => simp
    | k + 1 =>
      have hcond : 1 ≤ k + 1 ∧ k + 1 < 1 + n := ⟨by omega, by omega⟩
      simp only [List.flatMap_cons, List.flatMap_nil, List.append_nil]
      rw [if_pos hcond]
      rw [show (k + 1 + 1) - 1 = k + 1 from rfl, List.range'_concat,
        show 1 + 1 * k = k + 1 by omega]
      rfl

theorem flatMap_replicate_range (n : Nat) :
    (List.range (n + 1)).flatMap
      (fun i => List.replicate (if 1 ≤ i ∧ i < 1 + n then 1 else 0) i) =
      List.range' 1 n := by
  have := flatMap_replicate_bounded n (n + 1) (le_refl _)
  simpa using this

/-- C3.  Footnote references through the `is_footnote` branch of
`char_link`: the first reference to a known id emits one
FOOTNOTE_REF carrying the next ordinal and marks the entry used
(keeping the used ordinals exactly `1 .. footnotesz`); any later
reference to the same id, or a reference to an unknown id, emits the
literal bytes `[^id]` as NORMAL_TEXT and changes nothing; and
`parse_footnote_list` emits exactly one FOOTNOTE_DEF per used entry,
in ordinal order `1 .. footnotesz`, inside one FOOTNOTES_BLOCK. -/
theorem C3_footnote_refs (id : List Nat) (st : FnState) (acc : List FNode)
    (hid : id ≠ [])
    (hfree : ∀ b ∈ id, b ≠ 93 ∧ b ≠ 91 ∧ b ≠ 96 ∧ b ≠ 92)
    (hinv : fn_inv st) :
    (∀ fr, find_footnote_ref st.footnotes id = some fr → fr.is_used = false →
      char_link_footnote (91 :: 94 :: (id ++ [93])) 0 (id.length + 3) st acc =
        (id.length + 3,
         ⟨mark_first st.footnotes id (st.footnotesz + 1), st.footnotesz + 1⟩,
         acc ++ [FNode.mk .footnote_ref (.fnref (st.footnotesz + 1)) []]) ∧
      fn_inv ⟨mark_first st.footnotes id (st.footnotesz + 1),
        st.footnotesz + 1⟩) ∧
    (∀ fr, find_footnote_ref st.footnotes id = some fr → fr.is_used = true →
      char_link_footnote (91 :: 94 :: (id ++ [93])) 0 (id.length + 3) st acc =
        (id.length + 3, st, acc ++ [ntext (91 :: 94 :: (id ++ [93]))])) ∧
    (find_footnote_ref st.footnotes id = Option.none →
      char_link_footnote (91 :: 94 :: (id ++ [93])) 0 (id.length + 3) st acc =
        (id.length + 3, st, acc ++ [ntext (91 :: 94 :: (id ++ [93]))])) ∧
    (∀ pb, st.footnotes ≠ [] → 0 < st.footnotesz →
      ∃ defs, parse_footnote_list pb st =
          [FNode.mk .footnotes_block .none defs] ∧
        defs.map FNode.pay =
          (List.range' 1 st.footnotesz).map Payload.fndef ∧
        defs.length = st.footnotesz ∧
        ∀ nd ∈ defs, nd.t = NT.footnote_def) := by
  refine ⟨?_, ?_, ?_, ?_⟩
  · intro fr hfr hu
    constructor
    · rw [char_link_footnote_mkref id st acc hid hfree, hfr]
      simp [hu]
    · show (used_nums (mark_first st.footnotes id (st.footnotesz + 1)) :
        Multiset Nat) = ↑(List.range' 1 (st.footnotesz + 1))
      rw [used_nums_mark_first st.footnotes id (st.footnotesz + 1) fr hfr hu,
        hinv, List.range'_concat,
        show 1 + 1 * st.footnotesz = st.footnotesz + 1 by omega,
        ← Multiset.coe_singleton, ← Multiset.coe_add]
  · intro fr hfr hu
    rw [char_link_footnote_mkref id st acc hid hfree, hfr]
    simp [hu]
  · intro hfr
    rw [char_link_footnote_mkref id st acc hid hfree, hfr]
  · intro pb hne hsz
    have hperm : (used_nums st.footnotes).Perm
        (List.range' 1 st.footnotesz) := Multiset.coe_eq_coe.mp hinv
    have hfun : (fun i => (st.footnotes.filter
          (fun r => r.num == i && r.is_used)).map (fun r => r.num)) =
        (fun i => List.replicate
          (if 1 ≤ i ∧ i < 1 + st.footnotesz then 1 else 0) i) :=
      funext fun i => by
        rw [group_eq i st.footnotes, hperm.count_eq, count_range']
    have hmap : ((List.range (st.footnotesz + 1)).flatMap
        (fun i => st.footnotes.filter (fun r => r.num == i && r.is_used))).map
          (fun r => r.num) = List.range' 1 st.footnotesz := by
      rw [List.map_flatMap, hfun, flatMap_replicate_range]
    have hlenu : ((List.range (st.footnotesz + 1)).flatMap
        (fun i => st.footnotes.filter
          (fun r => r.num == i && r.is_used))).length = st.footnotesz := by
      have := congrArg List.length hmap
      simpa using this
    have hnn : ((List.range (st.footnotesz + 1)).flatMap
        (fun i => st.footnotes.filter
          (fun r => r.num == i && r.is_used))) ≠ [] := by
      intro h0
      rw [h0] at hlenu
      simp at hlenu
      omega
    have hne2 : ((List.range (st.footnotesz + 1)).flatMap
        (fun i => st.footnotes.filter
          (fun r => r.num == i && r.is_used))).isEmpty = false := by
      rw [Bool.eq_false_iff]
      intro h
      exact hnn (List.isEmpty_iff.mp h)
    refine ⟨((List.range (st.footnotesz + 1)).flatMap
        (fun i => st.footnotes.filter (fun r => r.num == i && r.is_used))).map
        (fun r => FNode.mk .footnote_def (.fndef r.num) (pb r.contents)),
      ?_, ?_, ?_, ?_⟩
    · rw [parse_footnote_list, if_neg hne]
      simp only [hne2, Bool.false_eq_true, if_false]
    · rw [List.map_map]
      calc ((List.range (st.footnotesz + 1)).flatMap
            (fun i => st.footnotes.filter
              (fun r => r.num == i && r.is_used))).map
            (FNode.pay ∘ fun r =>
              FNode.mk .footnote_def (.fndef r.num) (pb r.contents))
          = (((List.range (st.footnotesz + 1)).flatMap
            (fun i => st.footnotes.filter
              (fun r => r.num == i && r.is_used))).map
            (fun r => r.num)).map Payload.fndef := by
            rw [List.map_map]
            rfl
        _ = (List.range' 1 st.footnotesz).map Payload.fndef := by rw [hmap]
    · rw [List.length_map]
      exact hlenu
    · intro nd hnd
      rw [List.mem_map] at hnd
      obtain ⟨r, -, rfl⟩ := hnd
      rfl

/-- A one-entry footnote table (id `"a"`, contents `"bc"`, not yet
used) for exercising the footnote theorems. -/
def fn_demo_state : FnState := ⟨[⟨[97], [98, 99], false, 0⟩], 0⟩

theorem C3_footnote_refs_witness :
    ((∀ fr, find_footnote_ref fn_demo_state.footnotes [97] = some fr →
      fr.is_used = false →
      char_link_footnote (91 :: 94 :: ([97] ++ [93])) 0 ([97].length + 3)
          fn_demo_state [] =
        ([97].length + 3,
         ⟨mark_first fn_demo_state.footnotes [97] (fn_demo_state.footnotesz + 1),
          fn_demo_state.footnotesz + 1⟩,
         [] ++ [FNode.mk .footnote_ref (.fnref (fn_demo_state.footnotesz + 1)) []]) ∧
      fn_inv ⟨mark_first fn_demo_state.footnotes [97]
        (fn_demo_state.footnotesz + 1), fn_demo_state.footnotesz + 1⟩) ∧
    (∀ fr, find_footnote_ref fn_demo_state.footnotes [97] = some fr →
      fr.is_used = true →
      char_link_footnote (91 :: 94 :: ([97] ++ [93])) 0 ([97].length + 3)
          fn_demo_state [] =
        ([97].length + 3, fn_demo_state,
         [] ++ [ntext (91 :: 94 :: ([97] ++ [93]))])) ∧
    (find_footnote_ref fn_demo_state.footnotes [97] = Option.none →
      char_link_footnote (91 :: 94 :: ([97] ++ [93])) 0 ([97].length + 3)
          fn_demo_state [] =
        ([97].length + 3, fn_demo_state,
         [] ++ [ntext (91 :: 94 :: ([97] ++ [93]))])) ∧
    (∀ pb, fn_demo_state.footnotes ≠ [] → 0 < fn_demo_state.footnotesz →
      ∃ defs, parse_footnote_list pb fn_demo_state =
          [FNode.mk .footnotes_block .none defs] ∧
        defs.map FNode.pay =
          (List.range' 1 fn_demo_state.footnotesz).map Payload.fndef ∧
        defs.length = fn_demo_state.footnotesz ∧
        ∀ nd ∈ defs, nd.t = NT.footnote_def)) :=
  C3_footnote_refs [97] fn_demo_state [] (by simp) (by decide) (by unfold fn_inv; rfl)

end Lowdown
